import Mathlib

/-!
Verification of the roup directive-parsing library.

The repository ships the C ABI header (`include/roup.h`), the ompparser and
accparser compatibility facades with their test suites, and C examples; the
Rust core behind them is not part of the source tree.  Following the
specification, this file embeds the core as executable Lean definitions:

* a token source (sentinel stripping, continuation folding, balanced-paren
  tokenisation, spec section 4.A),
* a longest-match directive-kind recognizer over a static table (4.B),
* a table-driven clause parser with alias normalisation and ordered
  list / by-kind map construction (4.C, 4.D),
* a deterministic renderer and the language converter (4.E, 4.F),
* the handle registry and the C ABI entry points used by the claims (4.G).

Definitions marked `Modelled from the spec:` embed behaviour whose
implementation is outside the repository snapshot; everything else follows
`include/roup.h` and the compatibility test suites.
-/

set_option maxRecDepth 10000

namespace Roup

/-- Whitespace characters recognised by the token source. -/
def isWs (c : Char) : Bool :=
  c = ' ' || c = '\t' || c = '\n' || c = '\r'

/-- Characters that may appear inside a word token: everything except
whitespace, parentheses and the top-level comma separator. -/
def isWordChar (c : Char) : Bool :=
  !(isWs c) && c ≠ '(' && c ≠ ')' && c ≠ ','

/-- Modelled from the spec: tokens yielded by the token source (4.A) at the
granularity the directive and clause grammar needs: identifier-like words and
balanced parenthesized runs (the inner slice of a balanced `( )` group). -/
inductive Tok where
  | word (w : List Char)
  | paren (b : List Char)
deriving DecidableEq, Repr

/-- Modelled from the spec: C/C++ continuation folding (4.A): a backslash
immediately followed by a newline is deleted and the lines concatenate. -/
def foldCont : List Char → List Char
  | [] => []
  | [c] => [c]
  | c :: c2 :: rest =>
    if c = '\\' ∧ c2 = '\n' then foldCont rest else c :: foldCont (c2 :: rest)

/-- Flush the (reversed) pending word accumulator as a word token. -/
def flushW (acc : List Char) (ts : List Tok) : List Tok :=
  if acc = [] then ts else Tok.word acc.reverse :: ts

/-- Modelled from the spec: the tokenizer's scanning loop (4.A).  The first
argument is the paren-nesting depth (0 = outside any parenthesized run),
`pacc` the reversed paren-body accumulator, `wacc` the reversed pending
word.  Whitespace delimits and is discarded; a balanced `( )` group yields
its inner slice as one paren-body token; a depth-zero `,` is its own token;
a stray or unclosed parenthesis is a lex error. -/
def scanGo : Nat → List Char → List Char → List Char → Option (List Tok)
  | 0, _, wacc, [] => some (flushW wacc [])
  | _+1, _, _, [] => none
  | 0, pacc, wacc, c :: cs =>
    if isWs c then (scanGo 0 [] [] cs).map (flushW wacc)
    else if c = '(' then (scanGo 1 [] [] cs).map (flushW wacc)
    else if c = ')' then none
    else if c = ',' then (scanGo 0 [] [] cs).map (fun ts => flushW wacc (Tok.word [','] :: ts))
    else scanGo 0 pacc (c :: wacc) cs
  | d+1, pacc, wacc, c :: cs =>
    if c = ')' then
      if d = 0 then (scanGo 0 [] [] cs).map (fun ts => Tok.paren pacc.reverse :: ts)
      else scanGo d (c :: pacc) wacc cs
    else if c = '(' then scanGo (d + 2) (c :: pacc) wacc cs
    else scanGo (d + 1) (c :: pacc) wacc cs

/-- Modelled from the spec: the tokenizer (4.A). -/
def scan (cs : List Char) : Option (List Tok) := scanGo 0 [] [] cs

/-- Paren-nesting depth update for one character. -/
def depthStep (d : Nat) (c : Char) : Nat :=
  if c = '(' then d + 1 else if c = ')' then d - 1 else d

/-- Depth after processing a character run, starting from depth `d`. -/
def depthAfter : List Char → Nat → Nat
  | [], d => d
  | c :: cs, d => depthAfter cs (depthStep d c)

/-- `okAt cs d`: processing `cs` from depth `d` never closes a parenthesis
that is not open (the depth never underflows). -/
def okAt : List Char → Nat → Bool
  | [], _ => true
  | c :: cs, d => (if c = ')' then decide (0 < d) else true) && okAt cs (depthStep d c)

/-- `noTop sep cs d`: `cs`, processed from depth `d`, contains no occurrence
of `sep` at paren-nesting depth zero. -/
def noTop (sep : Char) : List Char → Nat → Bool
  | [], _ => true
  | c :: cs, d => (if c = sep then decide (d ≠ 0) else true) && noTop sep cs (depthStep d c)

/-- Worker for `splitTop`: `acc` is the reversed current segment. -/
def splitTopGo (sep : Char) : Nat → List Char → List Char → List (List Char)
  | _, acc, [] => [acc.reverse]
  | d, acc, c :: cs =>
    if c = sep ∧ d = 0 then acc.reverse :: splitTopGo sep 0 [] cs
    else splitTopGo sep (depthStep d c) (c :: acc) cs

/-- Split a clause body on occurrences of `sep` at paren-nesting depth zero
(4.C: list builders split the paren-body on commas at depth zero). -/
def splitTop (sep : Char) (cs : List Char) : List (List Char) :=
  splitTopGo sep 0 [] cs

/-- Worker for `splitFirstTop`. -/
def splitFirstTopGo (sep : Char) : Nat → List Char → List Char → Option (List Char × List Char)
  | _, _, [] => none
  | d, acc, c :: cs =>
    if c = sep ∧ d = 0 then some (acc.reverse, cs)
    else splitFirstTopGo sep (depthStep d c) (c :: acc) cs

/-- Split a clause body at the first depth-zero occurrence of `sep` (used for
the `modifier :` and `tag :` forms of 4.C). -/
def splitFirstTop (sep : Char) (cs : List Char) : Option (List Char × List Char) :=
  splitFirstTopGo sep 0 [] cs

/-- Trim leading and trailing whitespace from a character run. -/
def trimChars (cs : List Char) : List Char :=
  ((cs.dropWhile isWs).reverse.dropWhile isWs).reverse

/-- Join character runs with the canonical `", "` separator (4.E: list items
separated by comma + space). -/
def joinCS : List (List Char) → List Char
  | [] => []
  | [i] => i
  | i :: rest => i ++ ',' :: ' ' :: joinCS rest

/-- Lowercase a character run (keywords are matched case-insensitively). -/
def lowerW (w : List Char) : List Char := w.map Char.toLower

/-- Host language of a directive text, as in `roup.h` (`Language`): C/C++
(`#pragma omp`) or Fortran (`!$omp` and friends). -/
inductive Lang where
  | c
  | fortran
deriving DecidableEq, Repr

/-- Modelled from the spec: clause argument shapes (3: clause variants).
`sched` and `enum1` carry the closed keyword set of their tagged enumeration;
`tagged` is the `tag : item-list` form used by `reduction` and `depend`. -/
inductive Shape where
  | bare
  | expr
  | list
  | sched (kset : List String)
  | enum1 (kset : List String)
  | tagged
deriving DecidableEq, Repr

/-- Modelled from the spec: a clause payload (3).  Expression bodies are
opaque trimmed slices; list payloads keep the ordered items plus the optional
leading modifier; `sched`/`enum1` keep the keyword spelling as written (case
normalization of argument bodies is implementation-defined, 8). -/
inductive Arg where
  | bare
  | expr (e : String)
  | listArg (mod : Option String) (items : List String)
  | sched (sp : String) (chunk : Option String)
  | enum1 (sp : String)
  | tagged (tag : String) (items : List String)
deriving DecidableEq, Repr

/-- A clause value: canonical kind tag plus payload (3). -/
structure GClause (κ : Type) where
  kind : κ
  arg : Arg
deriving DecidableEq, Repr

/-- A directive value: kind tag, ordered clause list, and the indexed
clause-kind map (3). -/
structure GDirective (δ κ : Type) where
  kind : δ
  clauses : List (GClause κ)
  byKind : List (κ × List (GClause κ))
deriving DecidableEq, Repr

/-- Modelled from the spec: the static language tables.  `dirTable` is the
directive keyword-sequence table used by the longest-match recognizer (4.B);
`clauseTable` is the closed clause-alias table mapping every surface spelling
to (canonical kind, shape) (4.C); `dirWords` and `kindKeyword` are the
renderer's inverse lookups (4.E). -/
structure Tables (δ κ : Type) where
  sentinelKw : String
  dirTable : List (List String × δ)
  dirWords : δ → List String
  clauseTable : List (String × κ × Shape)
  kindKeyword : κ → String

/-- Keyword normalization before directive matching: in Fortran mode the
keyword `do` maps to the internal `for` kind's keyword (4.B). -/
def normWord (lang : Lang) (w : List Char) : List Char :=
  match lang with
  | .c => w
  | .fortran => if w = ['d', 'o'] then ['f', 'o', 'r'] else w

/-- Match one directive keyword sequence against the token stream,
case-insensitively; returns the remaining tokens. -/
def matchKeys (lang : Lang) : List String → List Tok → Option (List Tok)
  | [], toks => some toks
  | k :: ks, Tok.word w :: toks =>
    if normWord lang (lowerW w) = k.data then matchKeys lang ks toks else none
  | _ :: _, _ => none

/-- One step of the recognizer's scan over the directive table: keep the
current best match unless this entry matches with strictly more keywords. -/
def recogStep {δ : Type} (lang : Lang) (toks : List Tok)
    (best : Option (δ × List Tok × Nat)) (e : List String × δ) :
    Option (δ × List Tok × Nat) :=
  match matchKeys lang e.1 toks with
  | none => best
  | some rest =>
    match best with
    | none => some (e.2, rest, e.1.length)
    | some b => if b.2.2 < e.1.length then some (e.2, rest, e.1.length) else best

/-- Modelled from the spec: the directive-kind recognizer (4.B): longest
match over the static keyword-sequence table. -/
def recognizeDir {δ κ : Type} (T : Tables δ κ) (lang : Lang) (toks : List Tok) :
    Option (δ × List Tok) :=
  (T.dirTable.foldl (recogStep lang toks) none).map (fun r => (r.1, r.2.1))

/-- Look a (lowercased) clause keyword up in the clause-alias table. -/
def findClause {δ κ : Type} (T : Tables δ κ) (w : List Char) : Option (κ × Shape) :=
  T.clauseTable.findSome? (fun e => if e.1.data = w then some e.2 else none)

/-- Split a list body into trimmed items; every item must be nonempty
(an empty body or empty item is *MalformedClause*, 4.C). -/
def parseItems (b : List Char) : Option (List String) :=
  let segs := (splitTop ',' b).map trimChars
  if segs.all (· ≠ []) then some (segs.map fun s => String.mk s) else none

/-- Parse a list-clause body: optional leading modifier before a depth-zero
colon, then the comma-separated items (4.C). -/
def parseListBody (b : List Char) : Option (Option String × List String) :=
  match splitFirstTop ':' b with
  | some (pre, post) =>
    let m := trimChars pre
    if m = [] then none
    else (parseItems post).map fun items => (some (String.mk m), items)
  | none => (parseItems b).map fun items => (none, items)

/-- Parse a `schedule(kind[, chunk])`-shaped body against the closed keyword
set `kset`; the keyword spelling is preserved. -/
def parseSchedBody (kset : List String) (b : List Char) : Option (String × Option String) :=
  match (splitTop ',' b).map trimChars with
  | [s1] =>
    if s1 ≠ [] ∧ kset.contains (String.mk (lowerW s1)) then some (String.mk s1, none) else none
  | [s1, s2] =>
    if s1 ≠ [] ∧ s2 ≠ [] ∧ kset.contains (String.mk (lowerW s1)) then
      some (String.mk s1, some (String.mk s2))
    else none
  | _ => none

/-- Parse a single-keyword tagged-enum body (e.g. `default(none)`). -/
def parseEnumBody (kset : List String) (b : List Char) : Option String :=
  let s := trimChars b
  if s ≠ [] ∧ kset.contains (String.mk (lowerW s)) then some (String.mk s) else none

/-- Parse a `tag : item-list` body (e.g. `reduction(+: sum)`). -/
def parseTaggedBody (b : List Char) : Option (String × List String) :=
  match splitFirstTop ':' b with
  | some (pre, post) =>
    let tag := trimChars pre
    if tag = [] then none
    else (parseItems post).map fun items => (String.mk tag, items)
  | none => none

/-- Modelled from the spec: the clause parsing engine (4.C).  At each step it
consumes an optional leading comma, reads the clause keyword, normalizes it
through the alias table, and dispatches on the clause's shape; any malformed
clause fails the whole directive. -/
def parseClauses {δ κ : Type} (T : Tables δ κ) : List Tok → Option (List (GClause κ))
  | [] => some []
  | Tok.paren _ :: _ => none
  | Tok.word w :: rest =>
    if w = [','] then
      match rest with
      | [] => none
      | Tok.word _ :: _ => parseClauses T rest
      | Tok.paren _ :: _ => none
    else
      match findClause T (lowerW w) with
      | none => none
      | some (k, Shape.bare) =>
        match rest with
        | Tok.paren _ :: _ => none
        | _ => (parseClauses T rest).map (⟨k, .bare⟩ :: ·)
      | some (k, Shape.expr) =>
        match rest with
        | Tok.paren b :: rest2 =>
          (parseClauses T rest2).map (⟨k, .expr (String.mk (trimChars b))⟩ :: ·)
        | _ => none
      | some (k, Shape.list) =>
        match rest with
        | Tok.paren b :: rest2 =>
          match parseListBody b with
          | none => none
          | some (m, items) => (parseClauses T rest2).map (⟨k, .listArg m items⟩ :: ·)
        | _ => none
      | some (k, Shape.sched kset) =>
        match rest with
        | Tok.paren b :: rest2 =>
          match parseSchedBody kset b with
          | none => none
          | some (sp, chunk) => (parseClauses T rest2).map (⟨k, .sched sp chunk⟩ :: ·)
        | _ => none
      | some (k, Shape.enum1 kset) =>
        match rest with
        | Tok.paren b :: rest2 =>
          match parseEnumBody kset b with
          | none => none
          | some sp => (parseClauses T rest2).map (⟨k, .enum1 sp⟩ :: ·)
        | _ => none
      | some (k, Shape.tagged) =>
        match rest with
        | Tok.paren b :: rest2 =>
          match parseTaggedBody b with
          | none => none
          | some (tag, items) => (parseClauses T rest2).map (⟨k, .tagged tag items⟩ :: ·)
        | _ => none

/-- Append a clause to its slot of the indexed clause map (4.C step 4). -/
def insertByKind {κ : Type} [DecidableEq κ]
    (m : List (κ × List (GClause κ))) (c : GClause κ) : List (κ × List (GClause κ)) :=
  match m with
  | [] => [(c.kind, [c])]
  | (k, l) :: rest =>
    if k = c.kind then (k, l ++ [c]) :: rest else (k, l) :: insertByKind rest c

/-- Build the indexed clause map by appending each clause of the ordered list
into its slot, in order (4.C step 4). -/
def buildMap {κ : Type} [DecidableEq κ] (cs : List (GClause κ)) :
    List (κ × List (GClause κ)) :=
  cs.foldl insertByKind []

/-- Look up a clause kind's slot in the indexed clause map. -/
def lookupKind {κ : Type} [DecidableEq κ] (m : List (κ × List (GClause κ))) (k : κ) :
    Option (List (GClause κ)) :=
  match m with
  | [] => none
  | (k2, l) :: rest => if k2 = k then some l else lookupKind rest k

/-- The ordered clause list query of the IR (4.D, legacy
`getClausesInOriginalOrder`). -/
def clauses_in_original_order {δ κ : Type} (d : GDirective δ κ) : List (GClause κ) :=
  d.clauses

/-- The indexed clause map query of the IR (4.D, legacy `getAllClauses`). -/
def clauses_by_kind {δ κ : Type} (d : GDirective δ κ) : List (κ × List (GClause κ)) :=
  d.byKind

/-- Modelled from the spec: sentinel stripping (4.A): in C mode an optional
`#pragma` then the required sentinel; in Fortran mode one of the `!$`, `c$`,
`*$` sentinels, case-insensitively. -/
def stripSentinel {δ κ : Type} (T : Tables δ κ) (lang : Lang) : List Tok → Option (List Tok)
  | Tok.word w :: rest =>
    match lang with
    | .c =>
      if lowerW w = "#pragma".data then
        match rest with
        | Tok.word w2 :: rest2 => if lowerW w2 = T.sentinelKw.data then some rest2 else none
        | _ => none
      else if lowerW w = T.sentinelKw.data then some rest else none
    | .fortran =>
      if lowerW w = '!' :: '$' :: T.sentinelKw.data ∨
          lowerW w = 'c' :: '$' :: T.sentinelKw.data ∨
          lowerW w = '*' :: '$' :: T.sentinelKw.data then some rest
      else none
  | _ => none

/-- Modelled from the spec: the parse entry point (2: data flow per parse):
continuation folding and tokenization, sentinel stripping, longest-match
directive recognition, clause parsing, then directive assembly with the
ordered list and the indexed map.  Any failure yields no directive (7). -/
def parseD {δ κ : Type} [DecidableEq κ] (T : Tables δ κ) (lang : Lang) (s : String) :
    Option (GDirective δ κ) :=
  match scan (foldCont s.data) with
  | none => none
  | some toks =>
    match stripSentinel T lang toks with
    | none => none
    | some toks2 =>
      match recognizeDir T lang toks2 with
      | none => none
      | some (k, rest) =>
        match parseClauses T rest with
        | none => none
        | some cs => some ⟨k, cs, buildMap cs⟩

/-- Render a clause payload to the inner argument slice (4.E): items joined
by `", "`, modifiers and tags before items with `": "`, keyword spellings as
stored. -/
def renderArg : Arg → Option (List Char)
  | .bare => none
  | .expr e => some e.data
  | .listArg none items => some (joinCS (items.map (·.data)))
  | .listArg (some m) items => some (m.data ++ ':' :: ' ' :: joinCS (items.map (·.data)))
  | .sched sp none => some sp.data
  | .sched sp (some ch) => some (sp.data ++ ',' :: ' ' :: ch.data)
  | .enum1 sp => some sp.data
  | .tagged tag items => some (tag.data ++ ':' :: ' ' :: joinCS (items.map (·.data)))

/-- A rendered chunk: one space-separated unit, a word with an optional
attached parenthesized body. -/
def Chunk : Type := List Char × Option (List Char)

/-- The characters of one chunk. -/
def chunkStr : Chunk → List Char
  | (w, none) => w
  | (w, some b) => w ++ '(' :: (b ++ [')'])

/-- Join chunks with single spaces (4.E). -/
def joinChunks : List Chunk → List Char
  | [] => []
  | [ch] => chunkStr ch
  | ch :: rest => chunkStr ch ++ ' ' :: joinChunks rest

/-- In Fortran mode the `for` directive keyword is emitted as `do`; no other
keyword is altered (4.E host-language keyword mapping). -/
def fortranWordMap (lang : Lang) (w : String) : String :=
  match lang with
  | .c => w
  | .fortran => if w = "for" then "do" else w

/-- Directive keyword chunks for rendering (4.E). -/
def dirChunksR {δ κ : Type} (T : Tables δ κ) (lang : Lang) (k : δ) : List Chunk :=
  (T.dirWords k).map fun w => ((fortranWordMap lang w).data, none)

/-- One clause's chunk: canonical keyword plus the rendered body (4.E). -/
def clauseChunk {δ κ : Type} (T : Tables δ κ) (c : GClause κ) : Chunk :=
  ((T.kindKeyword c.kind).data, renderArg c.arg)

/-- The sentinel prefix chunks (4.E): `#pragma omp` / `#pragma acc` in C
mode, `!$omp` / `!$acc` in Fortran free form. -/
def prefixChunks {δ κ : Type} (T : Tables δ κ) (lang : Lang) : List Chunk :=
  match lang with
  | .c => [("#pragma".data, none), (T.sentinelKw.data, none)]
  | .fortran => [(('!' :: '$' :: T.sentinelKw.data : List Char), none)]

/-- All chunks of a rendered directive. -/
def renderChunks {δ κ : Type} (T : Tables δ κ) (lang : Lang) (d : GDirective δ κ) :
    List Chunk :=
  prefixChunks T lang ++ dirChunksR T lang d.kind ++ d.clauses.map (clauseChunk T)

/-- Modelled from the spec: the renderer (4.E): deterministic canonical
directive string, sentinel prefix then keywords then clauses in insertion
order, single spaces between chunks, no trailing whitespace. -/
def renderD {δ κ : Type} (T : Tables δ κ) (lang : Lang) (d : GDirective δ κ) : String :=
  String.mk (joinChunks (renderChunks T lang d))

/-- OpenMP directive kinds, following `DirectiveKind` in `include/roup.h`
(`section` and `for` are spelled `sectionD`/`forD` for Lean). -/
inductive OmpD where
  | parallel | forD | sections | sectionD | single | task | master | critical
  | barrier | taskwait | taskgroup | atomic | flush | ordered | simd | target
  | targetData | targetEnterData | targetExitData | targetUpdate | declareTarget
  | teams | distribute | declareSimd | declareReduction | taskloop | cancel
  | cancellationPoint | parallelFor | parallelSections | parallelMaster
  | masterTaskloop | parallelMasterTaskloop | targetParallel | targetParallelFor
  | targetSimd | targetTeams | teamsDistribute | teamsDistributeSimd
  | targetTeamsDistribute | targetTeamsDistributeSimd | distributeParallelFor
  | distributeParallelForSimd | distributeSimd | parallelForSimd | taskloopSimd
  | masterTaskloopSimd | parallelMasterTaskloopSimd | targetParallelForSimd
  | teamsDistributeParallelFor | teamsDistributeParallelForSimd
  | targetTeamsDistributeParallelFor | targetTeamsDistributeParallelForSimd
  | loop | parallelLoop | teamsLoop | targetLoop | targetParallelLoop
  | targetTeamsLoop | masked | scope | metadirective | declareVariant
  | requires | assume | nothing | error | scan | depobj | tile | unroll
  | allocate | threadprivate | declareMapper
deriving DecidableEq, Repr

/-- The keyword sequence of each OpenMP directive kind (C spelling; the
recognizer trie and the renderer lookup are both generated from this). -/
def ompDirWords : OmpD → List String
  | .parallel => ["parallel"]
  | .forD => ["for"]
  | .sections => ["sections"]
  | .sectionD => ["section"]
  | .single => ["single"]
  | .task => ["task"]
  | .master => ["master"]
  | .critical => ["critical"]
  | .barrier => ["barrier"]
  | .taskwait => ["taskwait"]
  | .taskgroup => ["taskgroup"]
  | .atomic => ["atomic"]
  | .flush => ["flush"]
  | .ordered => ["ordered"]
  | .simd => ["simd"]
  | .target => ["target"]
  | .targetData => ["target", "data"]
  | .targetEnterData => ["target", "enter", "data"]
  | .targetExitData => ["target", "exit", "data"]
  | .targetUpdate => ["target", "update"]
  | .declareTarget => ["declare", "target"]
  | .teams => ["teams"]
  | .distribute => ["distribute"]
  | .declareSimd => ["declare", "simd"]
  | .declareReduction => ["declare", "reduction"]
  | .taskloop => ["taskloop"]
  | .cancel => ["cancel"]
  | .cancellationPoint => ["cancellation", "point"]
  | .parallelFor => ["parallel", "for"]
  | .parallelSections => ["parallel", "sections"]
  | .parallelMaster => ["parallel", "master"]
  | .masterTaskloop => ["master", "taskloop"]
  | .parallelMasterTaskloop => ["parallel", "master", "taskloop"]
  | .targetParallel => ["target", "parallel"]
  | .targetParallelFor => ["target", "parallel", "for"]
  | .targetSimd => ["target", "simd"]
  | .targetTeams => ["target", "teams"]
  | .teamsDistribute => ["teams", "distribute"]
  | .teamsDistributeSimd => ["teams", "distribute", "simd"]
  | .targetTeamsDistribute => ["target", "teams", "distribute"]
  | .targetTeamsDistributeSimd => ["target", "teams", "distribute", "simd"]
  | .distributeParallelFor => ["distribute", "parallel", "for"]
  | .distributeParallelForSimd => ["distribute", "parallel", "for", "simd"]
  | .distributeSimd => ["distribute", "simd"]
  | .parallelForSimd => ["parallel", "for", "simd"]
  | .taskloopSimd => ["taskloop", "simd"]
  | .masterTaskloopSimd => ["master", "taskloop", "simd"]
  | .parallelMasterTaskloopSimd => ["parallel", "master", "taskloop", "simd"]
  | .targetParallelForSimd => ["target", "parallel", "for", "simd"]
  | .teamsDistributeParallelFor => ["teams", "distribute", "parallel", "for"]
  | .teamsDistributeParallelForSimd => ["teams", "distribute", "parallel", "for", "simd"]
  | .targetTeamsDistributeParallelFor => ["target", "teams", "distribute", "parallel", "for"]
  | .targetTeamsDistributeParallelForSimd =>
      ["target", "teams", "distribute", "parallel", "for", "simd"]
  | .loop => ["loop"]
  | .parallelLoop => ["parallel", "loop"]
  | .teamsLoop => ["teams", "loop"]
  | .targetLoop => ["target", "loop"]
  | .targetParallelLoop => ["target", "parallel", "loop"]
  | .targetTeamsLoop => ["target", "teams", "loop"]
  | .masked => ["masked"]
  | .scope => ["scope"]
  | .metadirective => ["metadirective"]
  | .declareVariant => ["declare", "variant"]
  | .requires => ["requires"]
  | .assume => ["assume"]
  | .nothing => ["nothing"]
  | .error => ["error"]
  | .scan => ["scan"]
  | .depobj => ["depobj"]
  | .tile => ["tile"]
  | .unroll => ["unroll"]
  | .allocate => ["allocate"]
  | .threadprivate => ["threadprivate"]
  | .declareMapper => ["declare", "mapper"]

/-- All OpenMP directive kinds, in the order of `roup.h`. -/
def allOmpD : List OmpD :=
  [.parallel, .forD, .sections, .sectionD, .single, .task, .master, .critical,
   .barrier, .taskwait, .taskgroup, .atomic, .flush, .ordered, .simd, .target,
   .targetData, .targetEnterData, .targetExitData, .targetUpdate, .declareTarget,
   .teams, .distribute, .declareSimd, .declareReduction, .taskloop, .cancel,
   .cancellationPoint, .parallelFor, .parallelSections, .parallelMaster,
   .masterTaskloop, .parallelMasterTaskloop, .targetParallel, .targetParallelFor,
   .targetSimd, .targetTeams, .teamsDistribute, .teamsDistributeSimd,
   .targetTeamsDistribute, .targetTeamsDistributeSimd, .distributeParallelFor,
   .distributeParallelForSimd, .distributeSimd, .parallelForSimd, .taskloopSimd,
   .masterTaskloopSimd, .parallelMasterTaskloopSimd, .targetParallelForSimd,
   .teamsDistributeParallelFor, .teamsDistributeParallelForSimd,
   .targetTeamsDistributeParallelFor, .targetTeamsDistributeParallelForSimd,
   .loop, .parallelLoop, .teamsLoop, .targetLoop, .targetParallelLoop,
   .targetTeamsLoop, .masked, .scope, .metadirective, .declareVariant,
   .requires, .assume, .nothing, .error, .scan, .depobj, .tile, .unroll,
   .allocate, .threadprivate, .declareMapper]

/-- OpenMP clause kinds, following `ClauseType` in `include/roup.h`
(the subset whose argument grammar the specification fixes). -/
inductive OmpC where
  | ifC | numThreads | defaultC | privateC | firstprivate | lastprivate
  | shared | reduction | copyin | copyprivate | schedule | nowait | collapse
  | untied | final | mergeable | depend | priority | grainsize | numTasks
  | nogroup | threads | simdC | uniform | inbranch | notinbranch | safelen
  | simdlen | device | mapC | numTeams | threadLimit | distSchedule | procBind
  | toC | fromC | useDevicePtr | isDevicePtr | link | nontemporal | orderC
  | destroy | detach | bindC | filter | allocateC | allocator | inclusive
  | exclusive | atomicDefaultMemOrder | dynamicAllocators | reverseOffload
  | unifiedAddress | unifiedSharedMemory | compare | seqCst | acqRel | release
  | acquire | relaxed | hint | update | capture | read | write | fullC
  | useDeviceAddr | hasDeviceAddr | enter | novariants | nocontext | message
deriving DecidableEq, Repr

/-- The canonical keyword of each OpenMP clause kind. -/
def ompClauseKeyword : OmpC → String
  | .ifC => "if"
  | .numThreads => "num_threads"
  | .defaultC => "default"
  | .privateC => "private"
  | .firstprivate => "firstprivate"
  | .lastprivate => "lastprivate"
  | .shared => "shared"
  | .reduction => "reduction"
  | .copyin => "copyin"
  | .copyprivate => "copyprivate"
  | .schedule => "schedule"
  | .nowait => "nowait"
  | .collapse => "collapse"
  | .untied => "untied"
  | .final => "final"
  | .mergeable => "mergeable"
  | .depend => "depend"
  | .priority => "priority"
  | .grainsize => "grainsize"
  | .numTasks => "num_tasks"
  | .nogroup => "nogroup"
  | .threads => "threads"
  | .simdC => "simd"
  | .uniform => "uniform"
  | .inbranch => "inbranch"
  | .notinbranch => "notinbranch"
  | .safelen => "safelen"
  | .simdlen => "simdlen"
  | .device => "device"
  | .mapC => "map"
  | .numTeams => "num_teams"
  | .threadLimit => "thread_limit"
  | .distSchedule => "dist_schedule"
  | .procBind => "proc_bind"
  | .toC => "to"
  | .fromC => "from"
  | .useDevicePtr => "use_device_ptr"
  | .isDevicePtr => "is_device_ptr"
  | .link => "link"
  | .nontemporal => "nontemporal"
  | .orderC => "order"
  | .destroy => "destroy"
  | .detach => "detach"
  | .bindC => "bind"
  | .filter => "filter"
  | .allocateC => "allocate"
  | .allocator => "allocator"
  | .inclusive => "inclusive"
  | .exclusive => "exclusive"
  | .atomicDefaultMemOrder => "atomic_default_mem_order"
  | .dynamicAllocators => "dynamic_allocators"
  | .reverseOffload => "reverse_offload"
  | .unifiedAddress => "unified_address"
  | .unifiedSharedMemory => "unified_shared_memory"
  | .compare => "compare"
  | .seqCst => "seq_cst"
  | .acqRel => "acq_rel"
  | .release => "release"
  | .acquire => "acquire"
  | .relaxed => "relaxed"
  | .hint => "hint"
  | .update => "update"
  | .capture => "capture"
  | .read => "read"
  | .write => "write"
  | .fullC => "full"
  | .useDeviceAddr => "use_device_addr"
  | .hasDeviceAddr => "has_device_addr"
  | .enter => "enter"
  | .novariants => "novariants"
  | .nocontext => "nocontext"
  | .message => "message"

/-- The argument shape of each OpenMP clause kind (3: clause variants). -/
def ompClauseShape : OmpC → Shape
  | .ifC => .expr
  | .numThreads => .expr
  | .defaultC => .enum1 ["shared", "none", "private", "firstprivate"]
  | .privateC => .list
  | .firstprivate => .list
  | .lastprivate => .list
  | .shared => .list
  | .reduction => .tagged
  | .copyin => .list
  | .copyprivate => .list
  | .schedule => .sched ["static", "dynamic", "guided", "auto", "runtime"]
  | .nowait => .bare
  | .collapse => .expr
  | .untied => .bare
  | .final => .expr
  | .mergeable => .bare
  | .depend => .tagged
  | .priority => .expr
  | .grainsize => .expr
  | .numTasks => .expr
  | .nogroup => .bare
  | .threads => .bare
  | .simdC => .bare
  | .uniform => .list
  | .inbranch => .bare
  | .notinbranch => .bare
  | .safelen => .expr
  | .simdlen => .expr
  | .device => .expr
  | .mapC => .list
  | .numTeams => .expr
  | .threadLimit => .expr
  | .distSchedule => .sched ["static"]
  | .procBind => .enum1 ["master", "close", "spread", "primary"]
  | .toC => .list
  | .fromC => .list
  | .useDevicePtr => .list
  | .isDevicePtr => .list
  | .link => .list
  | .nontemporal => .list
  | .orderC => .enum1 ["concurrent"]
  | .destroy => .bare
  | .detach => .expr
  | .bindC => .enum1 ["teams", "parallel", "thread"]
  | .filter => .expr
  | .allocateC => .list
  | .allocator => .expr
  | .inclusive => .list
  | .exclusive => .list
  | .atomicDefaultMemOrder => .enum1 ["seq_cst", "acq_rel", "relaxed", "release", "acquire"]
  | .dynamicAllocators => .bare
  | .reverseOffload => .bare
  | .unifiedAddress => .bare
  | .unifiedSharedMemory => .bare
  | .compare => .bare
  | .seqCst => .bare
  | .acqRel => .bare
  | .release => .bare
  | .acquire => .bare
  | .relaxed => .bare
  | .hint => .expr
  | .update => .bare
  | .capture => .bare
  | .read => .bare
  | .write => .bare
  | .fullC => .bare
  | .useDeviceAddr => .list
  | .hasDeviceAddr => .list
  | .enter => .list
  | .novariants => .expr
  | .nocontext => .expr
  | .message => .expr

/-- All modelled OpenMP clause kinds. -/
def allOmpC : List OmpC :=
  [.ifC, .numThreads, .defaultC, .privateC, .firstprivate, .lastprivate,
   .shared, .reduction, .copyin, .copyprivate, .schedule, .nowait, .collapse,
   .untied, .final, .mergeable, .depend, .priority, .grainsize, .numTasks,
   .nogroup, .threads, .simdC, .uniform, .inbranch, .notinbranch, .safelen,
   .simdlen, .device, .mapC, .numTeams, .threadLimit, .distSchedule, .procBind,
   .toC, .fromC, .useDevicePtr, .isDevicePtr, .link, .nontemporal, .orderC,
   .destroy, .detach, .bindC, .filter, .allocateC, .allocator, .inclusive,
   .exclusive, .atomicDefaultMemOrder, .dynamicAllocators, .reverseOffload,
   .unifiedAddress, .unifiedSharedMemory, .compare, .seqCst, .acqRel, .release,
   .acquire, .relaxed, .hint, .update, .capture, .read, .write, .fullC,
   .useDeviceAddr, .hasDeviceAddr, .enter, .novariants, .nocontext, .message]

/-- The OpenMP language tables (sentinel `omp`; no surface aliases beyond the
canonical spellings). -/
def ompTables : Tables OmpD OmpC :=
  { sentinelKw := "omp"
    dirTable := allOmpD.map fun k => (ompDirWords k, k)
    dirWords := ompDirWords
    clauseTable := allOmpC.map fun k => (ompClauseKeyword k, k, ompClauseShape k)
    kindKeyword := ompClauseKeyword }

/-- OpenACC directive kinds (the compatibility layer's `ACCD_*` tags). -/
inductive AccD where
  | parallel | serial | kernels | data | enterData | exitData | hostData
  | loop | parallelLoop | serialLoop | kernelsLoop | atomic | declare
  | update | wait | cache | routine | initA | shutdown | setA
deriving DecidableEq, Repr

/-- The keyword sequence of each OpenACC directive kind. -/
def accDirWords : AccD → List String
  | .parallel => ["parallel"]
  | .serial => ["serial"]
  | .kernels => ["kernels"]
  | .data => ["data"]
  | .enterData => ["enter", "data"]
  | .exitData => ["exit", "data"]
  | .hostData => ["host", "data"]
  | .loop => ["loop"]
  | .parallelLoop => ["parallel", "loop"]
  | .serialLoop => ["serial", "loop"]
  | .kernelsLoop => ["kernels", "loop"]
  | .atomic => ["atomic"]
  | .declare => ["declare"]
  | .update => ["update"]
  | .wait => ["wait"]
  | .cache => ["cache"]
  | .routine => ["routine"]
  | .initA => ["init"]
  | .shutdown => ["shutdown"]
  | .setA => ["set"]

/-- All modelled OpenACC directive kinds. -/
def allAccD : List AccD :=
  [.parallel, .serial, .kernels, .data, .enterData, .exitData, .hostData,
   .loop, .parallelLoop, .serialLoop, .kernelsLoop, .atomic, .declare,
   .update, .wait, .cache, .routine, .initA, .shutdown, .setA]

/-- OpenACC clause kinds (canonical kinds only; aliases are table entries). -/
inductive AccC where
  | copy | copyinA | copyoutA | create | present | deviceptr | privateA
  | firstprivateA | deviceType | attach | detachA | deleteA | host | deviceA
  | useDevice | noCreate | reductionA | numGangs | numWorkers | vectorLength
  | collapseA | ifA | asyncA | gang | worker | vector | seq | independent
  | autoA | ifPresent | finalize | nohost | defaultA
deriving DecidableEq, Repr

/-- The canonical keyword of each OpenACC clause kind. -/
def accClauseKeyword : AccC → String
  | .copy => "copy"
  | .copyinA => "copyin"
  | .copyoutA => "copyout"
  | .create => "create"
  | .present => "present"
  | .deviceptr => "deviceptr"
  | .privateA => "private"
  | .firstprivateA => "firstprivate"
  | .deviceType => "device_type"
  | .attach => "attach"
  | .detachA => "detach"
  | .deleteA => "delete"
  | .host => "host"
  | .deviceA => "device"
  | .useDevice => "use_device"
  | .noCreate => "no_create"
  | .reductionA => "reduction"
  | .numGangs => "num_gangs"
  | .numWorkers => "num_workers"
  | .vectorLength => "vector_length"
  | .collapseA => "collapse"
  | .ifA => "if"
  | .asyncA => "async"
  | .gang => "gang"
  | .worker => "worker"
  | .vector => "vector"
  | .seq => "seq"
  | .independent => "independent"
  | .autoA => "auto"
  | .ifPresent => "if_present"
  | .finalize => "finalize"
  | .nohost => "nohost"
  | .defaultA => "default"

/-- The argument shape of each OpenACC clause kind. -/
def accClauseShape : AccC → Shape
  | .copy => .list
  | .copyinA => .list
  | .copyoutA => .list
  | .create => .list
  | .present => .list
  | .deviceptr => .list
  | .privateA => .list
  | .firstprivateA => .list
  | .deviceType => .list
  | .attach => .list
  | .detachA => .list
  | .deleteA => .list
  | .host => .list
  | .deviceA => .list
  | .useDevice => .list
  | .noCreate => .list
  | .reductionA => .tagged
  | .numGangs => .expr
  | .numWorkers => .expr
  | .vectorLength => .expr
  | .collapseA => .expr
  | .ifA => .expr
  | .asyncA => .expr
  | .gang => .bare
  | .worker => .bare
  | .vector => .bare
  | .seq => .bare
  | .independent => .bare
  | .autoA => .bare
  | .ifPresent => .bare
  | .finalize => .bare
  | .nohost => .bare
  | .defaultA => .enum1 ["none", "present"]

/-- All modelled OpenACC clause kinds. -/
def allAccC : List AccC :=
  [.copy, .copyinA, .copyoutA, .create, .present, .deviceptr, .privateA,
   .firstprivateA, .deviceType, .attach, .detachA, .deleteA, .host, .deviceA,
   .useDevice, .noCreate, .reductionA, .numGangs, .numWorkers, .vectorLength,
   .collapseA, .ifA, .asyncA, .gang, .worker, .vector, .seq, .independent,
   .autoA, .ifPresent, .finalize, .nohost, .defaultA]

/-- The OpenACC clause-alias entries (3: `pcopy`/`present_or_copy` map to
`copy`, `pcopyin`/`present_or_copyin` to `copyin`, `pcopyout`/
`present_or_copyout` to `copyout`, `pcreate`/`present_or_create` to `create`,
`dtype` to `device_type`; the original spelling is not retained). -/
def accAliasEntries : List (String × AccC × Shape) :=
  [("pcopy", .copy, .list), ("present_or_copy", .copy, .list),
   ("pcopyin", .copyinA, .list), ("present_or_copyin", .copyinA, .list),
   ("pcopyout", .copyoutA, .list), ("present_or_copyout", .copyoutA, .list),
   ("pcreate", .create, .list), ("present_or_create", .create, .list),
   ("dtype", .deviceType, .list)]

/-- The OpenACC language tables (sentinel `acc`). -/
def accTables : Tables AccD AccC :=
  { sentinelKw := "acc"
    dirTable := allAccD.map fun k => (accDirWords k, k)
    dirWords := accDirWords
    clauseTable :=
      (allAccC.map fun k => (accClauseKeyword k, k, accClauseShape k)) ++ accAliasEntries
    kindKeyword := accClauseKeyword }

/-- The ompparser facade's parse entry point: `parseOpenMP` returns a
directive object or a null pointer; null input yields null (4.H and the
compatibility test suite).  `none` models the C null pointer. -/
def parseOpenMP (lang : Lang) (input : Option String) : Option (GDirective OmpD OmpC) :=
  input.bind (parseD ompTables lang)

/-- The accparser facade's parse entry point (`parseOpenACC`). -/
def parseOpenACC (lang : Lang) (input : Option String) : Option (GDirective AccD AccC) :=
  input.bind (parseD accTables lang)

/-- Modelled from the spec: `roup_convert_language` (4.F, declared in
`roup_compat.h`): parse in one host dialect, render in the other; fails (a
null string) when the parse fails. -/
def roup_convert_language (input : Option String) (fromLang toLang : Lang) :
    Option String :=
  (parseOpenMP fromLang input).map (renderD ompTables toLang)

/-- Status codes of the C ABI, following `OmpStatus` in `include/roup.h`. -/
inductive OmpStatus where
  | success
  | invalidHandle
  | invalidUTF8
  | nullPointer
  | outOfBounds
  | parseError
  | typeMismatch
  | emptyResult
deriving DecidableEq, Repr

/-- Modelled from the spec: an object owned by the handle registry (4.G):
string builders (content plus tracked capacity), directives, clause and
cursor objects derived from a parent directive handle, and parse-result
aggregates. -/
inductive Obj where
  | str (content : String) (cap : Nat)
  | dir (d : GDirective OmpD OmpC)
  | clause (parent : Nat) (c : GClause OmpC)
  | cursor (parent : Nat) (pos : Nat)
  | result (dirs : List Nat)
deriving DecidableEq

/-- Modelled from the spec: the process-wide handle registry (4.G): handles
are allocated monotonically from a counter; handle `0` is reserved as
invalid. -/
structure Registry where
  next : Nat
  objs : List (Nat × Obj)
deriving DecidableEq

/-- The initial registry: no objects, first handle is 1 (so 0 is never
issued). -/
def Registry.empty : Registry := ⟨1, []⟩

/-- Association lookup in the registry's object table. -/
def alook : List (Nat × Obj) → Nat → Option Obj
  | [], _ => none
  | (k, v) :: rest, h => if k = h then some v else alook rest h

/-- Registry `get`: handle `0` is always invalid; otherwise look the handle
up in the table. -/
def regGet (st : Registry) (h : Nat) : Option Obj :=
  if h = 0 then none else alook st.objs h

/-- Registry `insert`: allocate the next handle for a new object. -/
def regInsert (st : Registry) (o : Obj) : Registry × Nat :=
  ({ next := st.next + 1, objs := (st.next, o) :: st.objs }, st.next)

/-- Replace the object stored at a handle, leaving every other entry
untouched. -/
def regReplace (st : Registry) (h : Nat) (o : Obj) : Registry :=
  { st with objs := st.objs.map fun e => if e.1 = h then (e.1, o) else e }

/-- The parent directive handle of a derived object, if any. -/
def objParent : Obj → Option Nat
  | .clause p _ => some p
  | .cursor p _ => some p
  | _ => none

/-- Remove a handle together with every clause/cursor object derived from it
(3: freeing a directive's handle invalidates the handles of all its clauses
and of any cursor over its clauses). -/
def regRemoveOwned (st : Registry) (h : Nat) : Registry :=
  { st with objs := st.objs.filter fun e => !(e.1 = h || objParent e.2 = some h) }

/-- `omp_str_new` (roup.h): create an empty string builder. -/
def omp_str_new (st : Registry) : OmpStatus × Registry × Nat :=
  let p := regInsert st (.str "" 0)
  (.success, p.1, p.2)

/-- `omp_str_push_cstr` (roup.h): append to a string builder; capacity grows
as needed. -/
def omp_str_push_cstr (st : Registry) (h : Nat) (s : String) : OmpStatus × Registry :=
  match regGet st h with
  | some (.str c cap) =>
    (.success, regReplace st h (.str (c ++ s) (max cap (c ++ s).length)))
  | _ => (.invalidHandle, st)

/-- `omp_str_len` (roup.h). -/
def omp_str_len (st : Registry) (h : Nat) : OmpStatus × Option Nat :=
  match regGet st h with
  | some (.str c _) => (.success, some c.length)
  | _ => (.invalidHandle, none)

/-- `omp_str_capacity` (roup.h). -/
def omp_str_capacity (st : Registry) (h : Nat) : OmpStatus × Option Nat :=
  match regGet st h with
  | some (.str _ cap) => (.success, some cap)
  | _ => (.invalidHandle, none)

/-- `omp_str_is_empty` (roup.h). -/
def omp_str_is_empty (st : Registry) (h : Nat) : OmpStatus × Option Bool :=
  match regGet st h with
  | some (.str c _) => (.success, some (decide (c.length = 0)))
  | _ => (.invalidHandle, none)

/-- `omp_str_clear` (roup.h): length becomes 0, capacity unchanged. -/
def omp_str_clear (st : Registry) (h : Nat) : OmpStatus × Registry :=
  match regGet st h with
  | some (.str _ cap) => (.success, regReplace st h (.str "" cap))
  | _ => (.invalidHandle, st)

/-- `omp_str_free` (roup.h). -/
def omp_str_free (st : Registry) (h : Nat) : OmpStatus × Registry :=
  match regGet st h with
  | some (.str _ _) => (.success, regRemoveOwned st h)
  | _ => (.invalidHandle, st)

/-- `omp_parse` (roup.h): null input is *NullPointer*; a failed parse is
*ParseError* and allocates nothing; a successful parse registers the
directive and a parse-result aggregate owning it and returns the result
handle.  Out-parameters (the returned handle option) are written only on
success (7). -/
def omp_parse (input : Option String) (lang : Lang) (st : Registry) :
    OmpStatus × Registry × Option Nat :=
  match input with
  | none => (.nullPointer, st, none)
  | some s =>
    match parseD ompTables lang s with
    | none => (.parseError, st, none)
    | some d =>
      let p1 := regInsert st (.dir d)
      let p2 := regInsert p1.1 (.result [p1.2])
      (.success, p2.1, some p2.2)

/-- `omp_directive_kind` (roup.h). -/
def omp_directive_kind (st : Registry) (h : Nat) : OmpStatus × Option OmpD :=
  match regGet st h with
  | some (.dir d) => (.success, some d.kind)
  | _ => (.invalidHandle, none)

/-- `omp_directive_clause_count` (roup.h). -/
def omp_directive_clause_count (st : Registry) (h : Nat) : OmpStatus × Option Nat :=
  match regGet st h with
  | some (.dir d) => (.success, some d.clauses.length)
  | _ => (.invalidHandle, none)

/-- `omp_directive_free` (roup.h): freeing also invalidates every clause or
cursor handle derived from the directive; a second free is *InvalidHandle*. -/
def omp_directive_free (st : Registry) (h : Nat) : OmpStatus × Registry :=
  match regGet st h with
  | some (.dir _) => (.success, regRemoveOwned st h)
  | _ => (.invalidHandle, st)

/-- `omp_clause_at` (roup.h): registers and returns a clause handle derived
from the directive. -/
def omp_clause_at (st : Registry) (h : Nat) (i : Nat) : OmpStatus × Registry × Option Nat :=
  match regGet st h with
  | some (.dir d) =>
    match d.clauses.get? i with
    | some c =>
      let p := regInsert st (.clause h c)
      (.success, p.1, some p.2)
    | none => (.outOfBounds, st, none)
  | _ => (.invalidHandle, st, none)

/-- `omp_clause_type` (roup.h). -/
def omp_clause_type (st : Registry) (h : Nat) : OmpStatus × Option OmpC :=
  match regGet st h with
  | some (.clause _ c) => (.success, some c.kind)
  | _ => (.invalidHandle, none)

/-- `omp_directive_clauses_cursor` (roup.h): registers a cursor handle
derived from the directive. -/
def omp_directive_clauses_cursor (st : Registry) (h : Nat) :
    OmpStatus × Registry × Option Nat :=
  match regGet st h with
  | some (.dir _) =>
    let p := regInsert st (.cursor h 0)
    (.success, p.1, some p.2)
  | _ => (.invalidHandle, st, none)

/-- `omp_cursor_is_done` (roup.h): consults the cursor and its parent
directive. -/
def omp_cursor_is_done (st : Registry) (h : Nat) : OmpStatus × Option Bool :=
  match regGet st h with
  | some (.cursor p i) =>
    match regGet st p with
    | some (.dir d) => (.success, some (decide (d.clauses.length ≤ i)))
    | _ => (.invalidHandle, none)
  | _ => (.invalidHandle, none)

/-- No newline characters (so continuation folding is the identity). -/
def noNl (cs : List Char) : Bool := cs.all fun c => c ≠ '\n'

/-- Balanced parentheses: no depth underflow and net depth zero. -/
def balancedB (cs : List Char) : Bool := okAt cs 0 && (depthAfter cs 0 == 0)

/-- A well-formed stored item/keyword-spelling/chunk payload: nonempty,
trimmed, balanced, no depth-zero comma, no newline.  These are exactly the
canonicalization conditions of 4.E/6 on rendered argument pieces. -/
def itemOK (s : String) : Bool :=
  decide (s.data ≠ []) && (trimChars s.data == s.data) && balancedB s.data &&
    noTop ',' s.data 0 && noNl s.data

/-- No depth-zero colon (so the piece cannot be mistaken for a modifier). -/
def noTopColonS (s : String) : Bool := noTop ':' s.data 0

/-- A well-formed stored expression slice: trimmed, balanced, no newline
(3: expression payloads are opaque trimmed balanced slices). -/
def exprOK (e : String) : Bool :=
  (trimChars e.data == e.data) && balancedB e.data && noNl e.data

/-- A well-formed keyword chunk: nonempty and made of word characters. -/
def kwChunkOK (w : List Char) : Bool := decide (w ≠ []) && w.all isWordChar

/-- Well-formedness of an optional chunk payload. -/
def chunkOptOK : Option String → Bool
  | none => true
  | some s => itemOK s

/-- Well-formedness of a clause payload against its table shape: the
canonical-form conditions under which the renderer's output re-parses. -/
def wfArg : Shape → Arg → Bool
  | .bare, .bare => true
  | .expr, .expr e => exprOK e
  | .list, .listArg none items =>
    decide (items ≠ []) && items.all itemOK && items.all noTopColonS
  | .list, .listArg (some m) items =>
    decide (items ≠ []) && items.all itemOK && itemOK m && noTopColonS m
  | .sched kset, .sched sp ch =>
    itemOK sp && kset.contains (String.mk (lowerW sp.data)) && chunkOptOK ch
  | .enum1 kset, .enum1 sp => itemOK sp && kset.contains (String.mk (lowerW sp.data))
  | .tagged, .tagged tag items =>
    itemOK tag && noTopColonS tag && decide (items ≠ []) && items.all itemOK
  | _, _ => false

/-- The tokens of one rendered chunk. -/
def chunkToks : Chunk → List Tok
  | (w, none) => [Tok.word w]
  | (w, some b) => [Tok.word w, Tok.paren b]

/-- The token stream of a rendered clause sequence. -/
def clauseToksAll {δ κ : Type} (T : Tables δ κ) (cs : List (GClause κ)) : List Tok :=
  (cs.map (clauseChunk T)).flatMap chunkToks

/-- A well-formedness of one clause value: its canonical keyword looks itself
up in the alias table (yielding its own kind and shape), and its payload is
canonical for that shape. -/
def wfClause {δ κ : Type} [DecidableEq κ] (T : Tables δ κ) (c : GClause κ) : Bool :=
  kwChunkOK (T.kindKeyword c.kind).data &&
    match findClause T (lowerW (T.kindKeyword c.kind).data) with
    | none => false
    | some (k, shape) => decide (k = c.kind) && wfArg shape c.arg

/-- Well-formedness of a directive value: the canonical-form side conditions
under which its rendering is a canonical directive string.  Besides the
per-clause conditions this requires that the rendered keyword sequence
followed by the clause tokens recognizes back to exactly this kind (a string
whose keyword sequence spells a longer directive name is the canonical
rendering of that other, combined directive), and that the stored clause map
is the partition of the ordered list (the invariant of 3). -/
def wfDirective {δ κ : Type} [DecidableEq δ] [DecidableEq κ]
    (T : Tables δ κ) (lang : Lang) (d : GDirective δ κ) : Bool :=
  decide (lowerW T.sentinelKw.data = T.sentinelKw.data) &&
    kwChunkOK T.sentinelKw.data &&
    ((T.dirWords d.kind).all fun w => kwChunkOK (fortranWordMap lang w).data) &&
    decide (recognizeDir T lang
        ((dirChunksR T lang d.kind).flatMap chunkToks ++ clauseToksAll T d.clauses) =
      some (d.kind, clauseToksAll T d.clauses)) &&
    d.clauses.all (wfClause T) &&
    decide (d.byKind = buildMap d.clauses)

/-- Well-formedness of a rendered chunk: a nonempty all-word-character
keyword, and a balanced newline-free body if present. -/
def ChunkWF (ch : Chunk) : Prop :=
  (ch.1 ≠ [] ∧ ∀ c ∈ ch.1, isWordChar c = true) ∧
    (∀ b, ch.2 = some b → balancedB b = true)

/-- The directive value of the specification's first concrete scenario (8):
`#pragma omp parallel num_threads(4) private(x, y) shared(z)`. -/
def exParallelDir : GDirective OmpD OmpC :=
  ⟨.parallel,
   [⟨.numThreads, .expr "4"⟩, ⟨.privateC, .listArg none ["x", "y"]⟩,
    ⟨.shared, .listArg none ["z"]⟩],
   buildMap
     [⟨.numThreads, .expr "4"⟩, ⟨.privateC, .listArg none ["x", "y"]⟩,
      ⟨.shared, .listArg none ["z"]⟩]⟩

/-- A directive with two `private` clauses around a `num_threads` clause,
exercising per-kind grouping in the clause map. -/
def exTwoPrivateDir : GDirective OmpD OmpC :=
  ⟨.parallel,
   [⟨.privateC, .listArg none ["x"]⟩, ⟨.numThreads, .expr "4"⟩,
    ⟨.privateC, .listArg none ["y"]⟩],
   buildMap
     [⟨.privateC, .listArg none ["x"]⟩, ⟨.numThreads, .expr "4"⟩,
      ⟨.privateC, .listArg none ["y"]⟩]⟩

/-- A registry holding one directive (handle 1) together with a clause
handle (2) and a cursor handle (3) derived from it. -/
def exRegC9 : Registry :=
  ⟨4, [(1, .dir exParallelDir), (2, .clause 1 ⟨.numThreads, .expr "4"⟩), (3, .cursor 1 0)]⟩

/-- A registry holding one string builder (handle 1) with content `Hello`
and capacity 5. -/
def exRegC10 : Registry := ⟨2, [(1, .str "Hello" 5)]⟩

theorem foldCont_of_noNl (cs : List Char) (h : noNl cs = true) : foldCont cs = cs := by
  induction cs with
  | nil => rfl
  | cons c rest ih =>
    have hrest : noNl rest = true := by
      simp only [noNl, List.all_cons, Bool.and_eq_true] at h
      exact h.2
    cases rest with
    | nil => rfl
    | cons c2 rest2 =>
      have hc2 : c2 ≠ '\n' := by
        simp only [noNl, List.all_cons, Bool.and_eq_true, decide_eq_true_eq] at h
        exact h.2.1
      have hcond : ¬(c = '\\' ∧ c2 = '\n') := fun hh => hc2 hh.2
      simp only [foldCont, if_neg hcond]
      rw [ih hrest]

theorem wordChar_not_ws {c : Char} (h : isWordChar c = true) : isWs c = false := by
  simp only [isWordChar, Bool.and_eq_true, Bool.not_eq_true'] at h
  exact h.1.1.1

theorem wordChar_facts {c : Char} (h : isWordChar c = true) :
    isWs c = false ∧ c ≠ '(' ∧ c ≠ ')' ∧ c ≠ ',' := by
  simp only [isWordChar, Bool.and_eq_true, Bool.not_eq_true', decide_eq_true_eq] at h
  exact ⟨h.1.1.1, h.1.1.2, h.1.2, h.2⟩

theorem flushW_rev (w : List Char) (ts : List Tok) (h : w ≠ []) :
    flushW w.reverse ts = Tok.word w :: ts := by
  rw [flushW, if_neg (by simpa using h)]
  simp

theorem flushW_nil (ts : List Tok) : flushW [] ts = ts := rfl

theorem scanGo0_ws (pacc wacc cs : List Char) {c : Char} (h : isWs c = true) :
    scanGo 0 pacc wacc (c :: cs) = (scanGo 0 [] [] cs).map (flushW wacc) := by
  simp [scanGo, h]

theorem scanGo0_lparen (pacc wacc cs : List Char) :
    scanGo 0 pacc wacc ('(' :: cs) = (scanGo 1 [] [] cs).map (flushW wacc) := by
  simp [scanGo, isWs]

theorem scanGo0_word {c : Char} (h : isWordChar c = true) (pacc wacc cs : List Char) :
    scanGo 0 pacc wacc (c :: cs) = scanGo 0 pacc (c :: wacc) cs := by
  obtain ⟨h1, h2, h3, h4⟩ := wordChar_facts h
  simp [scanGo, h1, h2, h3, h4]

theorem scanGo_word_acc (w : List Char) :
    ∀ (wacc rest : List Char), (∀ c ∈ w, isWordChar c = true) →
      scanGo 0 [] wacc (w ++ rest) = scanGo 0 [] (w.reverse ++ wacc) rest := by
  induction w with
  | nil => intro wacc rest _; simp
  | cons c w' ih =>
    intro wacc rest hw
    rw [List.cons_append, scanGo0_word (hw c (by simp))]
    rw [ih (c :: wacc) rest fun x hx => hw x (by simp [hx])]
    simp

theorem scanGo_paren_pass (b : List Char) :
    ∀ (dd : Nat) (pacc wacc rest : List Char), okAt b dd = true →
      scanGo (dd + 1) pacc wacc (b ++ rest) =
        scanGo (depthAfter b dd + 1) (b.reverse ++ pacc) wacc rest := by
  induction b with
  | nil => intro dd pacc wacc rest _; simp [depthAfter]
  | cons c b' ih =>
    intro dd pacc wacc rest hok
    simp only [okAt, Bool.and_eq_true] at hok
    obtain ⟨hcond, hok'⟩ := hok
    have hda : depthAfter (c :: b') dd = depthAfter b' (depthStep dd c) := rfl
    have hacc : (c :: b').reverse ++ pacc = b'.reverse ++ (c :: pacc) := by simp
    rw [hda, hacc, List.cons_append, ← ih (depthStep dd c) (c :: pacc) wacc rest hok']
    by_cases hc : c = ')'
    · have hd : 0 < dd := by rw [if_pos hc] at hcond; exact of_decide_eq_true hcond
      subst hc
      have hstep : depthStep dd ')' = dd - 1 := by simp [depthStep]
      rw [hstep]
      simp only [scanGo, if_neg (by omega : ¬ dd = 0)]
      rw [show dd - 1 + 1 = dd from by omega]
      simp
    · by_cases ho : c = '('
      · subst ho
        have hstep : depthStep dd '(' = dd + 1 := by simp [depthStep]
        rw [hstep]
        simp only [scanGo, if_neg (by decide : ¬ ('(' : Char) = ')')]
        simp
      · have hstep : depthStep dd c = dd := by simp [depthStep, hc, ho]
        rw [hstep]
        simp only [scanGo, if_neg hc, if_neg ho]

theorem scanGo_close (pacc wacc rest : List Char) :
    scanGo 1 pacc wacc (')' :: rest) =
      (scanGo 0 [] [] rest).map fun ts => Tok.paren pacc.reverse :: ts := by
  show scanGo (0 + 1) pacc wacc (')' :: rest) = _
  simp [scanGo]

theorem scan_chunks (chunks : List Chunk) (h : ∀ ch ∈ chunks, ChunkWF ch) :
    scan (joinChunks chunks) = some (chunks.flatMap chunkToks) := by
  induction chunks with
  | nil => simp [joinChunks, scan, scanGo, flushW]
  | cons ch rest ih =>
    obtain ⟨⟨hne, hword⟩, hbody⟩ := h ch (by simp)
    have hrest : ∀ ch2 ∈ rest, ChunkWF ch2 := fun ch2 hm => h ch2 (by simp [hm])
    obtain ⟨w, b?⟩ := ch
    cases rest with
    | nil =>
      cases b? with
      | none =>
        have hj : joinChunks [((w, none) : Chunk)] = w ++ [] := by
          simp [joinChunks, chunkStr]
        rw [scan, hj, scanGo_word_acc w [] [] hword]
        show some (flushW (w.reverse ++ []) []) = _
        rw [List.append_nil, flushW_rev w [] hne]
        rfl
      | some b =>
        have hb := hbody b rfl
        simp only [balancedB, Bool.and_eq_true, beq_iff_eq] at hb
        have hj : joinChunks [((w, some b) : Chunk)] =
            w ++ ('(' :: (b ++ ')' :: [])) := by
          simp [joinChunks, chunkStr]
        rw [scan, hj, scanGo_word_acc w _ _ hword, List.append_nil, scanGo0_lparen,
            scanGo_paren_pass b 0 [] [] _ hb.1, hb.2, List.append_nil, scanGo_close]
        show (((scanGo 0 [] [] []).map _).map _) = _
        rw [show scanGo 0 [] [] [] = some (flushW [] []) from rfl, flushW_nil]
        simp [chunkToks, flushW, List.reverse_eq_nil_iff, hne]
    | cons ch2 rest2 =>
      have hjoin : joinChunks ((w, b?) :: ch2 :: rest2) =
          chunkStr (w, b?) ++ ' ' :: joinChunks (ch2 :: rest2) := rfl
      rw [scan] at ih ⊢
      cases b? with
      | none =>
        rw [hjoin]
        show scanGo 0 [] [] (w ++ ' ' :: joinChunks (ch2 :: rest2)) = _
        rw [scanGo_word_acc w _ _ hword, List.append_nil,
            scanGo0_ws _ _ _ (by decide : isWs ' ' = true), ih hrest]
        simp only [Option.map_some']
        rw [flushW_rev w _ hne]
        rfl
      | some b =>
        have hb := hbody b rfl
        simp only [balancedB, Bool.and_eq_true, beq_iff_eq] at hb
        rw [hjoin]
        have hstr : chunkStr (w, some b) ++ ' ' :: joinChunks (ch2 :: rest2) =
            w ++ ('(' :: (b ++ ')' :: (' ' :: joinChunks (ch2 :: rest2)))) := by
          simp [chunkStr]
        rw [hstr, scanGo_word_acc w _ _ hword, List.append_nil, scanGo0_lparen,
            scanGo_paren_pass b 0 [] [] _ hb.1, hb.2, scanGo_close,
            scanGo0_ws _ _ _ (by decide : isWs ' ' = true), ih hrest]
        simp [chunkToks, flushW, List.reverse_eq_nil_iff, hne]

theorem splitTopGo_ne_nil (sep : Char) :
    ∀ (t : List Char) (d : Nat) (acc : List Char), splitTopGo sep d acc t ≠ [] := by
  intro t
  induction t with
  | nil => intro d acc; simp [splitTopGo]
  | cons c t' ih =>
    intro d acc
    simp only [splitTopGo]
    by_cases hcd : c = sep ∧ d = 0
    · rw [if_pos hcd]; simp
    · rw [if_neg hcd]; exact ih _ _

theorem splitTopGo_acc (sep : Char) :
    ∀ (t : List Char) (d : Nat) (acc : List Char),
      splitTopGo sep d acc t =
        (acc.reverse ++ (splitTopGo sep d [] t).headI) :: (splitTopGo sep d [] t).tail := by
  intro t
  induction t with
  | nil => intro d acc; simp [splitTopGo]
  | cons c t' ih =>
    intro d acc
    simp only [splitTopGo]
    by_cases hcd : c = sep ∧ d = 0
    · rw [if_pos hcd, if_pos hcd]
      simp
    · rw [if_neg hcd, if_neg hcd]
      rw [ih (depthStep d c) (c :: acc), ih (depthStep d c) [c]]
      simp

theorem splitTopGo_pass (sep : Char) (s : List Char) :
    ∀ (d : Nat) (acc rest : List Char), noTop sep s d = true →
      splitTopGo sep d acc (s ++ rest) =
        splitTopGo sep (depthAfter s d) (s.reverse ++ acc) rest := by
  induction s with
  | nil => intro d acc rest _; simp [depthAfter]
  | cons c s' ih =>
    intro d acc rest hnt
    simp only [noTop, Bool.and_eq_true] at hnt
    obtain ⟨hcond, hnt'⟩ := hnt
    have hneg : ¬(c = sep ∧ d = 0) := by
      rintro ⟨h1, h2⟩
      rw [if_pos h1] at hcond
      exact (of_decide_eq_true hcond) h2
    have hda : depthAfter (c :: s') d = depthAfter s' (depthStep d c) := rfl
    have hacc : (c :: s').reverse ++ acc = s'.reverse ++ (c :: acc) := by simp
    rw [hda, hacc, List.cons_append]
    simp only [splitTopGo, if_neg hneg]
    exact ih (depthStep d c) (c :: acc) rest hnt'

theorem splitTop_single (sep : Char) (s : List Char) (hnt : noTop sep s 0 = true)
    (hd : depthAfter s 0 = 0) : splitTop sep s = [s] := by
  have := splitTopGo_pass sep s 0 [] [] hnt
  rw [List.append_nil] at this
  rw [splitTop, this, hd]
  simp [splitTopGo]

theorem splitTop_cons (sep : Char) (i rest : List Char) (hnt : noTop sep i 0 = true)
    (hd : depthAfter i 0 = 0) :
    splitTop sep (i ++ sep :: rest) = i :: splitTop sep rest := by
  rw [splitTop, splitTopGo_pass sep i 0 [] (sep :: rest) hnt, hd]
  simp only [splitTopGo]
  split
  · simp [splitTop]
  · rename_i hh
    exact absurd ⟨by trivial, by trivial⟩ hh

theorem trimChars_space (s : List Char) : trimChars (' ' :: s) = trimChars s := by
  simp [trimChars, List.dropWhile_cons, (by decide : isWs ' ' = true)]

theorem splitTop_space_trim (sep : Char) (hsep : sep ≠ ' ') (t : List Char) :
    (splitTop sep (' ' :: t)).map trimChars = (splitTop sep t).map trimChars := by
  have hne : splitTopGo sep 0 [] t ≠ [] := splitTopGo_ne_nil sep t 0 []
  have hstep : depthStep 0 ' ' = 0 := by decide
  have hgo : splitTop sep (' ' :: t) = splitTopGo sep 0 [' '] t := by
    rw [splitTop]
    show splitTopGo sep 0 [] (' ' :: t) = _
    simp only [splitTopGo]
    split
    · rename_i hh
      exact absurd hh.1.symm hsep
    · rw [hstep]
  rw [hgo, splitTopGo_acc sep t 0 [' ']]
  have hrec : splitTop sep t = (splitTopGo sep 0 [] t).headI :: (splitTopGo sep 0 [] t).tail := by
    rw [splitTop]
    cases hcase : splitTopGo sep 0 [] t with
    | nil => exact absurd hcase hne
    | cons a l => simp
  rw [hrec]
  simp [trimChars_space]

theorem splitFirstTopGo_pass (sep : Char) (s : List Char) :
    ∀ (d : Nat) (acc rest : List Char), noTop sep s d = true →
      splitFirstTopGo sep d acc (s ++ rest) =
        splitFirstTopGo sep (depthAfter s d) (s.reverse ++ acc) rest := by
  induction s with
  | nil => intro d acc rest _; simp [depthAfter]
  | cons c s' ih =>
    intro d acc rest hnt
    simp only [noTop, Bool.and_eq_true] at hnt
    obtain ⟨hcond, hnt'⟩ := hnt
    have hneg : ¬(c = sep ∧ d = 0) := by
      rintro ⟨h1, h2⟩
      rw [if_pos h1] at hcond
      exact (of_decide_eq_true hcond) h2
    have hda : depthAfter (c :: s') d = depthAfter s' (depthStep d c) := rfl
    have hacc : (c :: s').reverse ++ acc = s'.reverse ++ (c :: acc) := by simp
    rw [hda, hacc, List.cons_append]
    simp only [splitFirstTopGo, if_neg hneg]
    exact ih (depthStep d c) (c :: acc) rest hnt'

theorem splitFirstTop_none (sep : Char) (s : List Char) (hnt : noTop sep s 0 = true) :
    splitFirstTop sep s = none := by
  have := splitFirstTopGo_pass sep s 0 [] [] hnt
  rw [List.append_nil] at this
  rw [splitFirstTop, this]
  rfl

theorem splitFirstTop_hit (sep : Char) (pre post : List Char) (hnt : noTop sep pre 0 = true)
    (hd : depthAfter pre 0 = 0) :
    splitFirstTop sep (pre ++ sep :: post) = some (pre, post) := by
  rw [splitFirstTop, splitFirstTopGo_pass sep pre 0 [] (sep :: post) hnt, hd]
  simp [splitFirstTopGo]

theorem depthAfter_append (a b : List Char) :
    ∀ d, depthAfter (a ++ b) d = depthAfter b (depthAfter a d) := by
  induction a with
  | nil => intro d; simp [depthAfter]
  | cons c a' ih => intro d; simp only [List.cons_append, depthAfter]; exact ih _

theorem noTop_append (sep : Char) (a b : List Char) :
    ∀ d, noTop sep a d = true → noTop sep b (depthAfter a d) = true →
      noTop sep (a ++ b) d = true := by
  induction a with
  | nil => intro d _ hb; simpa [depthAfter] using hb
  | cons c a' ih =>
    intro d ha hb
    simp only [noTop, Bool.and_eq_true] at ha ⊢
    exact ⟨ha.1, ih _ ha.2 hb⟩

theorem okAt_append (a b : List Char) :
    ∀ d, okAt a d = true → okAt b (depthAfter a d) = true → okAt (a ++ b) d = true := by
  induction a with
  | nil => intro d _ hb; simpa [depthAfter] using hb
  | cons c a' ih =>
    intro d ha hb
    simp only [okAt, Bool.and_eq_true] at ha ⊢
    exact ⟨ha.1, ih _ ha.2 hb⟩

theorem noNl_append (a b : List Char) (ha : noNl a = true) (hb : noNl b = true) :
    noNl (a ++ b) = true := by
  simp only [noNl, List.all_append, Bool.and_eq_true]
  exact ⟨ha, hb⟩

theorem itemOK_spec {s : String} (h : itemOK s = true) :
    s.data ≠ [] ∧ trimChars s.data = s.data ∧ okAt s.data 0 = true ∧
      depthAfter s.data 0 = 0 ∧ noTop ',' s.data 0 = true ∧ noNl s.data = true := by
  simp only [itemOK, balancedB, Bool.and_eq_true, decide_eq_true_eq, beq_iff_eq] at h
  refine ⟨?_, ?_, ?_, ?_, ?_, ?_⟩ <;> tauto

theorem exprOK_spec {e : String} (h : exprOK e = true) :
    trimChars e.data = e.data ∧ okAt e.data 0 = true ∧ depthAfter e.data 0 = 0 ∧
      noNl e.data = true := by
  simp only [exprOK, balancedB, Bool.and_eq_true, decide_eq_true_eq, beq_iff_eq] at h
  refine ⟨?_, ?_, ?_, ?_⟩ <;> tauto

theorem depthStep_other {c : Char} (h1 : c ≠ '(') (h2 : c ≠ ')') (d : Nat) :
    depthStep d c = d := by
  simp [depthStep, h1, h2]

theorem okAt_cons_other {c : Char} (h2 : c ≠ ')') (rest : List Char) (d : Nat) :
    okAt (c :: rest) d = okAt rest (depthStep d c) := by
  simp [okAt, h2]

theorem noTop_cons_other {sep c : Char} (h : c ≠ sep) (rest : List Char) (d : Nat) :
    noTop sep (c :: rest) d = noTop sep rest (depthStep d c) := by
  simp [noTop, h]

theorem joinCS_depth (items : List (List Char))
    (h : ∀ i ∈ items, depthAfter i 0 = 0) : depthAfter (joinCS items) 0 = 0 := by
  induction items with
  | nil => rfl
  | cons i rest ih =>
    cases rest with
    | nil => exact h i (by simp)
    | cons i2 rest2 =>
      show depthAfter (i ++ ',' :: ' ' :: joinCS (i2 :: rest2)) 0 = 0
      rw [depthAfter_append, h i (by simp)]
      show depthAfter (joinCS (i2 :: rest2)) (depthStep (depthStep 0 ',') ' ') = 0
      rw [depthStep_other (by decide) (by decide), depthStep_other (by decide) (by decide)]
      exact ih fun j hj => h j (by simp [hj])

theorem joinCS_okAt (items : List (List Char))
    (h : ∀ i ∈ items, okAt i 0 = true ∧ depthAfter i 0 = 0) :
    okAt (joinCS items) 0 = true := by
  induction items with
  | nil => rfl
  | cons i rest ih =>
    cases rest with
    | nil => exact (h i (by simp)).1
    | cons i2 rest2 =>
      show okAt (i ++ ',' :: ' ' :: joinCS (i2 :: rest2)) 0 = true
      refine okAt_append _ _ 0 (h i (by simp)).1 ?_
      rw [(h i (by simp)).2]
      rw [okAt_cons_other (by decide), depthStep_other (by decide) (by decide),
          okAt_cons_other (by decide), depthStep_other (by decide) (by decide)]
      exact ih fun j hj => h j (by simp [hj])

theorem joinCS_noTop (sep : Char) (hs1 : sep ≠ ',') (hs2 : sep ≠ ' ')
    (items : List (List Char))
    (h : ∀ i ∈ items, noTop sep i 0 = true ∧ depthAfter i 0 = 0) :
    noTop sep (joinCS items) 0 = true := by
  induction items with
  | nil => rfl
  | cons i rest ih =>
    cases rest with
    | nil => exact (h i (by simp)).1
    | cons i2 rest2 =>
      show noTop sep (i ++ ',' :: ' ' :: joinCS (i2 :: rest2)) 0 = true
      refine noTop_append sep _ _ 0 (h i (by simp)).1 ?_
      rw [(h i (by simp)).2]
      rw [noTop_cons_other (Ne.symm hs1), depthStep_other (by decide) (by decide),
          noTop_cons_other (Ne.symm hs2), depthStep_other (by decide) (by decide)]
      exact ih fun j hj => h j (by simp [hj])

theorem joinCS_noNl (items : List (List Char)) (h : ∀ i ∈ items, noNl i = true) :
    noNl (joinCS items) = true := by
  induction items with
  | nil => rfl
  | cons i rest ih =>
    cases rest with
    | nil => exact h i (by simp)
    | cons i2 rest2 =>
      show noNl (i ++ ',' :: ' ' :: joinCS (i2 :: rest2)) = true
      refine noNl_append _ _ (h i (by simp)) ?_
      have := ih fun j hj => h j (by simp [hj])
      simp only [noNl, List.all_cons, Bool.and_eq_true, decide_eq_true_eq]
      exact ⟨by decide, by decide, this⟩

theorem splitTop_joinCS_trim (items : List (List Char)) (hne : items ≠ [])
    (h : ∀ i ∈ items, noTop ',' i 0 = true ∧ depthAfter i 0 = 0 ∧ trimChars i = i) :
    (splitTop ',' (joinCS items)).map trimChars = items := by
  induction items with
  | nil => exact absurd rfl hne
  | cons i rest ih =>
    cases rest with
    | nil =>
      show (splitTop ',' i).map trimChars = [i]
      rw [splitTop_single ',' i (h i (by simp)).1 (h i (by simp)).2.1]
      simp [(h i (by simp)).2.2]
    | cons i2 rest2 =>
      show (splitTop ',' (i ++ ',' :: ' ' :: joinCS (i2 :: rest2))).map trimChars = _
      rw [splitTop_cons ',' i _ (h i (by simp)).1 (h i (by simp)).2.1]
      simp only [List.map_cons]
      rw [(h i (by simp)).2.2]
      rw [splitTop_space_trim ',' (by decide) (joinCS (i2 :: rest2))]
      rw [ih (by simp) fun j hj => h j (by simp [hj])]

theorem map_mk_data (l : List String) : (l.map (·.data)).map String.mk = l := by
  rw [List.map_map]
  conv_rhs => rw [← List.map_id l]
  rfl

theorem parseItems_joinCS (items : List String) (hne : items ≠ [])
    (h : ∀ i ∈ items, itemOK i = true) :
    parseItems (joinCS (items.map (·.data))) = some items := by
  have hsegs : (splitTop ',' (joinCS (items.map (·.data)))).map trimChars =
      items.map (·.data) := by
    refine splitTop_joinCS_trim _ (by simpa using hne) ?_
    intro i hi
    simp only [List.mem_map] at hi
    obtain ⟨s, hs, rfl⟩ := hi
    obtain ⟨_, h2, _, h4, h5, _⟩ := itemOK_spec (h s hs)
    exact ⟨h5, h4, h2⟩
  rw [parseItems]
  simp only [hsegs]
  rw [if_pos ?hall]
  case hall =>
    simp only [List.all_eq_true, decide_eq_true_eq]
    intro x hx
    simp only [List.mem_map] at hx
    obtain ⟨s, hs, rfl⟩ := hx
    exact (itemOK_spec (h s hs)).1
  rw [show (items.map (·.data)).map (fun s => String.mk s) = items from map_mk_data items]

theorem parseItems_space (items : List String) (hne : items ≠ [])
    (h : ∀ i ∈ items, itemOK i = true) :
    parseItems (' ' :: joinCS (items.map (·.data))) = some items := by
  have hsp := splitTop_space_trim ',' (by decide) (joinCS (items.map (·.data)))
  have := parseItems_joinCS items hne h
  rw [parseItems] at this ⊢
  simp only [hsp]
  exact this

theorem parseListBody_noMod (items : List String) (hne : items ≠ [])
    (h : ∀ i ∈ items, itemOK i = true) (hnc : ∀ i ∈ items, noTopColonS i = true) :
    parseListBody (joinCS (items.map (·.data))) = some (none, items) := by
  have hnt : noTop ':' (joinCS (items.map (·.data))) 0 = true := by
    refine joinCS_noTop ':' (by decide) (by decide) _ ?_
    intro i hi
    simp only [List.mem_map] at hi
    obtain ⟨s, hs, rfl⟩ := hi
    exact ⟨hnc s hs, (itemOK_spec (h s hs)).2.2.2.1⟩
  rw [parseListBody, splitFirstTop_none ':' _ hnt, parseItems_joinCS items hne h]
  rfl

theorem parseListBody_mod (m : String) (items : List String) (hne : items ≠ [])
    (h : ∀ i ∈ items, itemOK i = true) (hm : itemOK m = true)
    (hmc : noTopColonS m = true) :
    parseListBody (m.data ++ ':' :: ' ' :: joinCS (items.map (·.data))) =
      some (some m, items) := by
  obtain ⟨hm1, hm2, _, hm4, _, _⟩ := itemOK_spec hm
  rw [parseListBody, splitFirstTop_hit ':' m.data _ hmc hm4]
  simp only [hm2]
  rw [if_neg (by simpa using hm1), parseItems_space items hne h]
  rfl

theorem parseSchedBody_noChunk (kset : List String) (sp : String) (hsp : itemOK sp = true)
    (hk : kset.contains (String.mk (lowerW sp.data)) = true) :
    parseSchedBody kset sp.data = some (sp, none) := by
  obtain ⟨h1, h2, h3, h4, h5, _⟩ := itemOK_spec hsp
  rw [parseSchedBody, splitTop_single ',' sp.data h5 h4]
  simp only [List.map_cons, List.map_nil, h2]
  rw [if_pos ⟨by simpa using h1, hk⟩]

theorem parseSchedBody_chunk (kset : List String) (sp ch : String) (hsp : itemOK sp = true)
    (hch : itemOK ch = true) (hk : kset.contains (String.mk (lowerW sp.data)) = true) :
    parseSchedBody kset (sp.data ++ ',' :: ' ' :: ch.data) = some (sp, some ch) := by
  obtain ⟨h1, h2, h3, h4, h5, _⟩ := itemOK_spec hsp
  obtain ⟨g1, g2, g3, g4, g5, _⟩ := itemOK_spec hch
  have hsingle : splitTop ',' (' ' :: ch.data) = [' ' :: ch.data] := by
    refine splitTop_single ',' _ ?_ ?_
    · rw [noTop_cons_other (by decide), depthStep_other (by decide) (by decide)]
      exact g5
    · show depthAfter ch.data (depthStep 0 ' ') = 0
      rw [depthStep_other (by decide) (by decide)]
      exact g4
  rw [parseSchedBody, splitTop_cons ',' sp.data _ h5 h4, hsingle]
  simp only [List.map_cons, List.map_nil, h2, trimChars_space, g2]
  rw [if_pos ⟨by simpa using h1, by simpa using g1, hk⟩]

theorem parseEnumBody_inv (kset : List String) (sp : String) (hsp : itemOK sp = true)
    (hk : kset.contains (String.mk (lowerW sp.data)) = true) :
    parseEnumBody kset sp.data = some sp := by
  obtain ⟨h1, h2, _, _, _, _⟩ := itemOK_spec hsp
  rw [parseEnumBody]
  simp only [h2]
  rw [if_pos ⟨by simpa using h1, hk⟩]

theorem parseTaggedBody_inv (tag : String) (items : List String) (hne : items ≠ [])
    (h : ∀ i ∈ items, itemOK i = true) (ht : itemOK tag = true)
    (htc : noTopColonS tag = true) :
    parseTaggedBody (tag.data ++ ':' :: ' ' :: joinCS (items.map (·.data))) =
      some (tag, items) := by
  obtain ⟨ht1, ht2, _, ht4, _, _⟩ := itemOK_spec ht
  rw [parseTaggedBody, splitFirstTop_hit ':' tag.data _ htc ht4]
  simp only [ht2]
  rw [if_neg (by simpa using ht1), parseItems_space items hne h]
  rfl

theorem pre_sep_join_facts (pre : List Char) (sepc : Char) (t : List Char)
    (hsep1 : sepc ≠ '(') (hsep2 : sepc ≠ ')') (hsep3 : sepc ≠ '\n')
    (hok : okAt pre 0 = true) (hd : depthAfter pre 0 = 0) (hnl : noNl pre = true)
    (htok : okAt t 0 = true) (htd : depthAfter t 0 = 0) (htnl : noNl t = true) :
    okAt (pre ++ sepc :: ' ' :: t) 0 = true ∧
      depthAfter (pre ++ sepc :: ' ' :: t) 0 = 0 ∧
      noNl (pre ++ sepc :: ' ' :: t) = true := by
  refine ⟨?_, ?_, ?_⟩
  · refine okAt_append _ _ 0 hok ?_
    rw [hd, okAt_cons_other hsep2, depthStep_other hsep1 hsep2,
        okAt_cons_other (by decide), depthStep_other (by decide) (by decide)]
    exact htok
  · rw [depthAfter_append, hd]
    show depthAfter t (depthStep (depthStep 0 sepc) ' ') = 0
    rw [depthStep_other hsep1 hsep2, depthStep_other (by decide) (by decide)]
    exact htd
  · refine noNl_append _ _ hnl ?_
    simp only [noNl, List.all_cons, Bool.and_eq_true, decide_eq_true_eq]
    exact ⟨hsep3, by decide, htnl⟩

theorem items_join_facts (items : List String) (h : ∀ i ∈ items, itemOK i = true) :
    okAt (joinCS (items.map (·.data))) 0 = true ∧
      depthAfter (joinCS (items.map (·.data))) 0 = 0 ∧
      noNl (joinCS (items.map (·.data))) = true := by
  refine ⟨?_, ?_, ?_⟩
  · refine joinCS_okAt _ ?_
    intro i hi
    simp only [List.mem_map] at hi
    obtain ⟨s, hs, rfl⟩ := hi
    obtain ⟨_, _, h3, h4, _, _⟩ := itemOK_spec (h s hs)
    exact ⟨h3, h4⟩
  · refine joinCS_depth _ ?_
    intro i hi
    simp only [List.mem_map] at hi
    obtain ⟨s, hs, rfl⟩ := hi
    exact (itemOK_spec (h s hs)).2.2.2.1
  · refine joinCS_noNl _ ?_
    intro i hi
    simp only [List.mem_map] at hi
    obtain ⟨s, hs, rfl⟩ := hi
    exact (itemOK_spec (h s hs)).2.2.2.2.2

theorem wfArg_list_spec {mod : Option String} {items : List String}
    (h : wfArg .list (.listArg mod items) = true) :
    items ≠ [] ∧ (∀ i ∈ items, itemOK i = true) ∧
      (mod = none → ∀ i ∈ items, noTopColonS i = true) ∧
      (∀ m, mod = some m → itemOK m = true ∧ noTopColonS m = true) := by
  cases mod with
  | none =>
    simp only [wfArg, Bool.and_eq_true, decide_eq_true_eq, List.all_eq_true] at h
    exact ⟨h.1.1, fun i hi => h.1.2 i hi, fun _ i hi => h.2 i hi, by simp⟩
  | some m =>
    simp only [wfArg, Bool.and_eq_true, decide_eq_true_eq, List.all_eq_true] at h
    exact ⟨h.1.1.1, fun i hi => h.1.1.2 i hi, by simp,
      fun m2 hm2 => by cases hm2; exact ⟨h.1.2, h.2⟩⟩

theorem renderArg_facts {shape : Shape} {arg : Arg} (h : wfArg shape arg = true) :
    ∀ b, renderArg arg = some b →
      okAt b 0 = true ∧ depthAfter b 0 = 0 ∧ noNl b = true := by
  intro b hb
  cases shape with
  | bare => cases arg <;> simp_all [wfArg, renderArg]
  | expr =>
    cases arg <;> simp_all [wfArg, renderArg]
    obtain ⟨_, h2, h3, h4⟩ := exprOK_spec h
    subst hb
    exact ⟨h2, h3, h4⟩
  | list =>
    cases arg with
    | listArg mod items =>
      obtain ⟨hne, hitems, hnc, hmod⟩ := wfArg_list_spec h
      obtain ⟨j1, j2, j3⟩ := items_join_facts items hitems
      cases mod with
      | none =>
        simp only [renderArg, Option.some.injEq] at hb
        subst hb
        exact ⟨j1, j2, j3⟩
      | some m =>
        simp only [renderArg, Option.some.injEq] at hb
        subst hb
        obtain ⟨hm, _⟩ := hmod m rfl
        obtain ⟨_, _, m3, m4, _, m6⟩ := itemOK_spec hm
        exact pre_sep_join_facts m.data ':' _ (by decide) (by decide) (by decide)
          m3 m4 m6 j1 j2 j3
    | bare => simp [wfArg] at h
    | expr e => simp [wfArg] at h
    | sched sp ch => simp [wfArg] at h
    | enum1 sp => simp [wfArg] at h
    | tagged tag items => simp [wfArg] at h
  | sched kset =>
    cases arg with
    | sched sp ch =>
      simp only [wfArg, Bool.and_eq_true] at h
      obtain ⟨⟨hsp, _⟩, hch⟩ := h
      obtain ⟨_, _, s3, s4, _, s6⟩ := itemOK_spec hsp
      cases ch with
      | none =>
        simp only [renderArg, Option.some.injEq] at hb
        subst hb
        exact ⟨s3, s4, s6⟩
      | some c =>
        simp only [renderArg, Option.some.injEq] at hb
        subst hb
        have hc : itemOK c = true := by simpa [chunkOptOK] using hch
        obtain ⟨_, _, c3, c4, _, c6⟩ := itemOK_spec hc
        exact pre_sep_join_facts sp.data ',' c.data (by decide) (by decide) (by decide)
          s3 s4 s6 c3 c4 c6
    | bare => simp [wfArg] at h
    | expr e => simp [wfArg] at h
    | listArg m i => simp [wfArg] at h
    | enum1 sp => simp [wfArg] at h
    | tagged t i => simp [wfArg] at h
  | enum1 kset =>
    cases arg with
    | enum1 sp =>
      simp only [wfArg, Bool.and_eq_true] at h
      obtain ⟨hsp, _⟩ := h
      obtain ⟨_, _, s3, s4, _, s6⟩ := itemOK_spec hsp
      simp only [renderArg, Option.some.injEq] at hb
      subst hb
      exact ⟨s3, s4, s6⟩
    | bare => simp [wfArg] at h
    | expr e => simp [wfArg] at h
    | listArg m i => simp [wfArg] at h
    | sched sp ch => simp [wfArg] at h
    | tagged t i => simp [wfArg] at h
  | tagged =>
    cases arg with
    | tagged tag items =>
      simp only [wfArg, Bool.and_eq_true, decide_eq_true_eq, List.all_eq_true] at h
      obtain ⟨⟨⟨ht, _⟩, hne⟩, hitems⟩ := h
      obtain ⟨_, _, t3, t4, _, t6⟩ := itemOK_spec ht
      obtain ⟨j1, j2, j3⟩ := items_join_facts items (fun i hi => hitems i hi)
      simp only [renderArg, Option.some.injEq] at hb
      subst hb
      exact pre_sep_join_facts tag.data ':' _ (by decide) (by decide) (by decide)
        t3 t4 t6 j1 j2 j3
    | bare => simp [wfArg] at h
    | expr e => simp [wfArg] at h
    | listArg m i => simp [wfArg] at h
    | sched sp ch => simp [wfArg] at h
    | enum1 sp => simp [wfArg] at h

theorem kwChunkOK_spec {w : List Char} (h : kwChunkOK w = true) :
    w ≠ [] ∧ ∀ c ∈ w, isWordChar c = true := by
  simp only [kwChunkOK, Bool.and_eq_true, decide_eq_true_eq, List.all_eq_true] at h
  exact ⟨h.1, fun c hc => h.2 c hc⟩

theorem kwChunkOK_ne_comma {w : List Char} (h : kwChunkOK w = true) : w ≠ [','] := by
  intro hcontra
  subst hcontra
  simp [kwChunkOK, isWordChar, isWs] at h

theorem clauseToksAll_nil {δ κ : Type} (T : Tables δ κ) : clauseToksAll T [] = [] := rfl

theorem clauseToksAll_cons {δ κ : Type} (T : Tables δ κ) (c : GClause κ)
    (cs : List (GClause κ)) :
    clauseToksAll T (c :: cs) = chunkToks (clauseChunk T c) ++ clauseToksAll T cs := by
  simp [clauseToksAll]

theorem clauseToksAll_shape {δ κ : Type} (T : Tables δ κ) (cs : List (GClause κ)) :
    clauseToksAll T cs = [] ∨ ∃ w t, clauseToksAll T cs = Tok.word w :: t := by
  cases cs with
  | nil => exact Or.inl rfl
  | cons c cs' =>
    right
    rw [clauseToksAll_cons]
    cases hb : renderArg c.arg with
    | none =>
      exact ⟨(T.kindKeyword c.kind).data, clauseToksAll T cs',
        by simp [chunkToks, clauseChunk, hb]⟩
    | some b =>
      exact ⟨(T.kindKeyword c.kind).data, Tok.paren b :: clauseToksAll T cs',
        by simp [chunkToks, clauseChunk, hb]⟩

theorem parseClauses_inv {δ κ : Type} [DecidableEq κ] (T : Tables δ κ)
    (cs : List (GClause κ)) (h : ∀ c ∈ cs, wfClause T c = true) :
    parseClauses T (clauseToksAll T cs) = some cs := by
  induction cs with
  | nil => simp [clauseToksAll_nil, parseClauses]
  | cons c cs' ih =>
    obtain ⟨ck, carg⟩ := c
    have hc := h ⟨ck, carg⟩ (by simp)
    rw [wfClause, Bool.and_eq_true] at hc
    obtain ⟨hkw, hmatch⟩ := hc
    have hrest := ih fun x hx => h x (by simp [hx])
    cases hfind : findClause T (lowerW (T.kindKeyword ck).data) with
    | none => rw [hfind] at hmatch; cases hmatch
    | some ks =>
      obtain ⟨k, shape⟩ := ks
      rw [hfind] at hmatch
      simp only [Bool.and_eq_true, decide_eq_true_eq] at hmatch
      obtain ⟨hkeq, hwf⟩ := hmatch
      subst hkeq
      rw [clauseToksAll_cons]
      cases shape with
      | bare =>
        cases carg with
        | expr e => simp [wfArg] at hwf
        | listArg m i => simp [wfArg] at hwf
        | sched sp ch => simp [wfArg] at hwf
        | enum1 sp => simp [wfArg] at hwf
        | tagged t i => simp [wfArg] at hwf
        | bare =>
          simp only [clauseChunk, renderArg, chunkToks, List.cons_append, List.nil_append]
          rcases clauseToksAll_shape T cs' with hsh | ⟨w2, t2, hsh⟩ <;> rw [hsh] at hrest ⊢
          · have hnil : cs' = [] := by
              simp only [parseClauses, Option.some.injEq] at hrest
              exact hrest.symm
            subst hnil
            simp only [parseClauses, if_neg (kwChunkOK_ne_comma hkw), hfind]
            rfl
          · have hstep : parseClauses T (Tok.word (T.kindKeyword k).data :: Tok.word w2 :: t2) =
                (parseClauses T (Tok.word w2 :: t2)).map (⟨k, Arg.bare⟩ :: ·) := by
              simp only [parseClauses, if_neg (kwChunkOK_ne_comma hkw), hfind]
            rw [hstep, hrest]
            rfl
      | expr =>
        cases carg with
        | bare => simp [wfArg] at hwf
        | listArg m i => simp [wfArg] at hwf
        | sched sp ch => simp [wfArg] at hwf
        | enum1 sp => simp [wfArg] at hwf
        | tagged t i => simp [wfArg] at hwf
        | expr e =>
          have hwfe : exprOK e = true := hwf
          simp only [clauseChunk, renderArg, chunkToks, List.cons_append, List.nil_append]
          simp only [parseClauses, if_neg (kwChunkOK_ne_comma hkw), hfind]
          rw [hrest, (exprOK_spec hwfe).1]
          rfl
      | list =>
        cases carg with
        | bare => simp [wfArg] at hwf
        | expr e => simp [wfArg] at hwf
        | sched sp ch => simp [wfArg] at hwf
        | enum1 sp => simp [wfArg] at hwf
        | tagged t i => simp [wfArg] at hwf
        | listArg mod items =>
          obtain ⟨hne, hitems, hnc, hmod⟩ := wfArg_list_spec hwf
          simp only [clauseChunk, chunkToks]
          cases mod with
          | none =>
            simp only [renderArg, List.cons_append, List.nil_append]
            simp only [parseClauses, if_neg (kwChunkOK_ne_comma hkw), hfind]
            rw [parseListBody_noMod items hne hitems (hnc rfl), hrest]
            rfl
          | some m =>
            simp only [renderArg, List.cons_append, List.nil_append]
            simp only [parseClauses, if_neg (kwChunkOK_ne_comma hkw), hfind]
            obtain ⟨hm, hmc⟩ := hmod m rfl
            rw [parseListBody_mod m items hne hitems hm hmc, hrest]
            rfl
      | sched kset =>
        cases carg with
        | bare => simp [wfArg] at hwf
        | expr e => simp [wfArg] at hwf
        | listArg m i => simp [wfArg] at hwf
        | enum1 sp => simp [wfArg] at hwf
        | tagged t i => simp [wfArg] at hwf
        | sched sp ch =>
          rw [wfArg, Bool.and_eq_true, Bool.and_eq_true] at hwf
          obtain ⟨⟨hsp, hk⟩, hch⟩ := hwf
          simp only [clauseChunk, chunkToks]
          cases ch with
          | none =>
            simp only [renderArg, List.cons_append, List.nil_append]
            simp only [parseClauses, if_neg (kwChunkOK_ne_comma hkw), hfind]
            rw [parseSchedBody_noChunk kset sp hsp hk, hrest]
            rfl
          | some cch =>
            have hcch : itemOK cch = true := by simpa [chunkOptOK] using hch
            simp only [renderArg, List.cons_append, List.nil_append]
            simp only [parseClauses, if_neg (kwChunkOK_ne_comma hkw), hfind]
            rw [parseSchedBody_chunk kset sp cch hsp hcch hk, hrest]
            rfl
      | enum1 kset =>
        cases carg with
        | bare => simp [wfArg] at hwf
        | expr e => simp [wfArg] at hwf
        | listArg m i => simp [wfArg] at hwf
        | sched sp ch => simp [wfArg] at hwf
        | tagged t i => simp [wfArg] at hwf
        | enum1 sp =>
          rw [wfArg, Bool.and_eq_true] at hwf
          obtain ⟨hsp, hk⟩ := hwf
          simp only [clauseChunk, renderArg, chunkToks, List.cons_append, List.nil_append]
          simp only [parseClauses, if_neg (kwChunkOK_ne_comma hkw), hfind]
          rw [parseEnumBody_inv kset sp hsp hk, hrest]
          rfl
      | tagged =>
        cases carg with
        | bare => simp [wfArg] at hwf
        | expr e => simp [wfArg] at hwf
        | listArg m i => simp [wfArg] at hwf
        | sched sp ch => simp [wfArg] at hwf
        | enum1 sp => simp [wfArg] at hwf
        | tagged tag items =>
          rw [wfArg, Bool.and_eq_true, Bool.and_eq_true, Bool.and_eq_true] at hwf
          obtain ⟨⟨⟨ht, htc⟩, hne⟩, hitems⟩ := hwf
          rw [decide_eq_true_eq] at hne
          rw [List.all_eq_true] at hitems
          simp only [clauseChunk, renderArg, chunkToks, List.cons_append, List.nil_append]
          simp only [parseClauses, if_neg (kwChunkOK_ne_comma hkw), hfind]
          rw [parseTaggedBody_inv tag items hne (fun i hi => hitems i hi) ht htc, hrest]
          rfl

theorem wordChar_ne_nl {c : Char} (h : isWordChar c = true) : c ≠ '\n' := by
  intro hc
  subst hc
  simp [isWordChar, isWs] at h

theorem kwChunk_noNl {w : List Char} (h : ∀ c ∈ w, isWordChar c = true) :
    noNl w = true := by
  simp only [noNl, List.all_eq_true, decide_eq_true_eq]
  exact fun c hc => wordChar_ne_nl (h c hc)

theorem chunkStr_noNl (ch : Chunk) (hw : ∀ c ∈ ch.1, isWordChar c = true)
    (hb : ∀ b, ch.2 = some b → noNl b = true) : noNl (chunkStr ch) = true := by
  obtain ⟨w, b?⟩ := ch
  cases b? with
  | none => exact kwChunk_noNl hw
  | some b =>
    show noNl (w ++ '(' :: (b ++ [')'])) = true
    refine noNl_append _ _ (kwChunk_noNl hw) ?_
    simp only [noNl, List.all_cons, Bool.and_eq_true, decide_eq_true_eq]
    refine ⟨by decide, ?_⟩
    have := hb b rfl
    simp only [noNl, List.all_append, Bool.and_eq_true] at this ⊢
    exact ⟨this, by decide⟩

theorem joinChunks_noNl (chunks : List Chunk)
    (h : ∀ ch ∈ chunks, noNl (chunkStr ch) = true) : noNl (joinChunks chunks) = true := by
  induction chunks with
  | nil => rfl
  | cons ch rest ih =>
    cases rest with
    | nil => exact h ch (by simp)
    | cons ch2 rest2 =>
      show noNl (chunkStr ch ++ ' ' :: joinChunks (ch2 :: rest2)) = true
      refine noNl_append _ _ (h ch (by simp)) ?_
      simp only [noNl, List.all_cons, Bool.and_eq_true, decide_eq_true_eq]
      exact ⟨by decide, ih fun x hx => h x (by simp [hx])⟩

theorem clauseChunk_wf {δ κ : Type} [DecidableEq κ] (T : Tables δ κ) (c : GClause κ)
    (h : wfClause T c = true) : ChunkWF (clauseChunk T c) := by
  rw [wfClause, Bool.and_eq_true] at h
  obtain ⟨hkw, hmatch⟩ := h
  refine ⟨by exact kwChunkOK_spec hkw, ?_⟩
  intro b hbsome
  cases hfind : findClause T (lowerW (T.kindKeyword c.kind).data) with
  | none => rw [hfind] at hmatch; cases hmatch
  | some ks =>
    obtain ⟨k, shape⟩ := ks
    rw [hfind] at hmatch
    simp only [Bool.and_eq_true, decide_eq_true_eq] at hmatch
    obtain ⟨_, hwf⟩ := hmatch
    obtain ⟨b1, b2, _⟩ := renderArg_facts hwf b hbsome
    simp only [balancedB, Bool.and_eq_true, beq_iff_eq]
    exact ⟨b1, b2⟩

theorem clauseChunk_noNl {δ κ : Type} [DecidableEq κ] (T : Tables δ κ) (c : GClause κ)
    (h : wfClause T c = true) : noNl (chunkStr (clauseChunk T c)) = true := by
  rw [wfClause, Bool.and_eq_true] at h
  obtain ⟨hkw, hmatch⟩ := h
  refine chunkStr_noNl _ (fun x hx => (kwChunkOK_spec hkw).2 x hx) ?_
  intro b hbsome
  cases hfind : findClause T (lowerW (T.kindKeyword c.kind).data) with
  | none => rw [hfind] at hmatch; cases hmatch
  | some ks =>
    obtain ⟨k, shape⟩ := ks
    rw [hfind] at hmatch
    simp only [Bool.and_eq_true, decide_eq_true_eq] at hmatch
    exact (renderArg_facts hmatch.2 b hbsome).2.2

theorem stripSentinel_prefix {δ κ : Type} (T : Tables δ κ) (lang : Lang) (X : List Tok)
    (hlower : lowerW T.sentinelKw.data = T.sentinelKw.data) :
    stripSentinel T lang ((prefixChunks T lang).flatMap chunkToks ++ X) = some X := by
  cases lang with
  | c =>
    show stripSentinel T .c
        (Tok.word "#pragma".data :: Tok.word T.sentinelKw.data :: X) = some X
    rw [stripSentinel]
    rw [if_pos (by decide : lowerW "#pragma".data = "#pragma".data)]
    rw [if_pos hlower]
  | fortran =>
    show stripSentinel T .fortran (Tok.word ('!' :: '$' :: T.sentinelKw.data) :: X) = some X
    have hlow : lowerW ('!' :: '$' :: T.sentinelKw.data) =
        '!' :: '$' :: T.sentinelKw.data := by
      show Char.toLower '!' :: Char.toLower '$' :: lowerW T.sentinelKw.data = _
      rw [hlower]
      rfl
    rw [stripSentinel]
    rw [if_pos (Or.inl hlow)]

theorem wfDirective_spec {δ κ : Type} [DecidableEq δ] [DecidableEq κ]
    {T : Tables δ κ} {lang : Lang} {d : GDirective δ κ}
    (h : wfDirective T lang d = true) :
    lowerW T.sentinelKw.data = T.sentinelKw.data ∧
      kwChunkOK T.sentinelKw.data = true ∧
      (∀ w ∈ T.dirWords d.kind, kwChunkOK (fortranWordMap lang w).data = true) ∧
      recognizeDir T lang
          ((dirChunksR T lang d.kind).flatMap chunkToks ++ clauseToksAll T d.clauses) =
        some (d.kind, clauseToksAll T d.clauses) ∧
      (∀ c ∈ d.clauses, wfClause T c = true) ∧
      d.byKind = buildMap d.clauses := by
  simp only [wfDirective, Bool.and_eq_true, decide_eq_true_eq, List.all_eq_true] at h
  refine ⟨?_, ?_, ?_, ?_, ?_, ?_⟩ <;> tauto

theorem renderChunks_wf {δ κ : Type} [DecidableEq δ] [DecidableEq κ]
    (T : Tables δ κ) (lang : Lang) (d : GDirective δ κ)
    (h : wfDirective T lang d = true) :
    ∀ ch ∈ renderChunks T lang d, ChunkWF ch := by
  obtain ⟨h1, h2, h3, _, h5, _⟩ := wfDirective_spec h
  intro ch hch
  simp only [renderChunks, List.mem_append] at hch
  rcases hch with (hpre | hdir) | hcl
  · cases lang with
    | c =>
      simp only [prefixChunks, List.mem_cons, List.not_mem_nil, or_false] at hpre
      rcases hpre with rfl | rfl
      · exact ⟨⟨by decide, by decide⟩, by intro b hb; cases hb⟩
      · exact ⟨kwChunkOK_spec h2, by intro b hb; cases hb⟩
    | fortran =>
      simp only [prefixChunks, List.mem_cons, List.not_mem_nil, or_false] at hpre
      rcases hpre with rfl
      refine ⟨⟨by simp, ?_⟩, by intro b hb; cases hb⟩
      intro c hc
      simp only [List.mem_cons] at hc
      rcases hc with rfl | rfl | hc
      · decide
      · decide
      · exact (kwChunkOK_spec h2).2 c hc
  · simp only [dirChunksR, List.mem_map] at hdir
    obtain ⟨w, hw, rfl⟩ := hdir
    exact ⟨kwChunkOK_spec (h3 w hw), by intro b hb; cases hb⟩
  · simp only [List.mem_map] at hcl
    obtain ⟨c, hc, rfl⟩ := hcl
    exact clauseChunk_wf T c (h5 c hc)

theorem renderChunks_noNl {δ κ : Type} [DecidableEq δ] [DecidableEq κ]
    (T : Tables δ κ) (lang : Lang) (d : GDirective δ κ)
    (h : wfDirective T lang d = true) :
    noNl (joinChunks (renderChunks T lang d)) = true := by
  obtain ⟨h1, h2, h3, _, h5, _⟩ := wfDirective_spec h
  refine joinChunks_noNl _ ?_
  intro ch hch
  simp only [renderChunks, List.mem_append] at hch
  rcases hch with (hpre | hdir) | hcl
  · cases lang with
    | c =>
      simp only [prefixChunks, List.mem_cons, List.not_mem_nil, or_false] at hpre
      rcases hpre with rfl | rfl
      · decide
      · exact kwChunk_noNl (kwChunkOK_spec h2).2
    | fortran =>
      simp only [prefixChunks, List.mem_cons, List.not_mem_nil, or_false] at hpre
      rcases hpre with rfl
      show noNl ('!' :: '$' :: T.sentinelKw.data) = true
      simp only [noNl, List.all_cons, Bool.and_eq_true, decide_eq_true_eq]
      exact ⟨by decide, by decide, kwChunk_noNl (kwChunkOK_spec h2).2⟩
  · simp only [dirChunksR, List.mem_map] at hdir
    obtain ⟨w, hw, rfl⟩ := hdir
    exact kwChunk_noNl (kwChunkOK_spec (h3 w hw)).2
  · simp only [List.mem_map] at hcl
    obtain ⟨c, hc, rfl⟩ := hcl
    exact clauseChunk_noNl T c (h5 c hc)

/-- The central round-trip lemma: on the canonical domain, parsing the
rendered text recovers the directive value exactly (tokenization inverts the
renderer, the recognizer recovers the kind, the clause parser inverts the
clause renderer, and the rebuilt clause map is the stored one). -/
theorem parseD_renderD {δ κ : Type} [DecidableEq δ] [DecidableEq κ]
    (T : Tables δ κ) (lang : Lang) (d : GDirective δ κ)
    (h : wfDirective T lang d = true) :
    parseD T lang (renderD T lang d) = some d := by
  obtain ⟨h1, h2, h3, h4, h5, h6⟩ := wfDirective_spec h
  have hdata : (renderD T lang d).data = joinChunks (renderChunks T lang d) := rfl
  have hfold : foldCont ((renderD T lang d).data) = joinChunks (renderChunks T lang d) := by
    rw [hdata]
    exact foldCont_of_noNl _ (renderChunks_noNl T lang d h)
  have hscan : scan (joinChunks (renderChunks T lang d)) =
      some ((renderChunks T lang d).flatMap chunkToks) :=
    scan_chunks _ (renderChunks_wf T lang d h)
  have hflat : (renderChunks T lang d).flatMap chunkToks =
      (prefixChunks T lang).flatMap chunkToks ++
        ((dirChunksR T lang d.kind).flatMap chunkToks ++ clauseToksAll T d.clauses) := by
    simp [renderChunks, clauseToksAll]
  have hstrip := stripSentinel_prefix T lang
    ((dirChunksR T lang d.kind).flatMap chunkToks ++ clauseToksAll T d.clauses) h1
  have hpc := parseClauses_inv T d.clauses h5
  rw [parseD, hfold, hscan]
  simp only [hflat, hstrip, h4, hpc]
  cases d with
  | mk kind clauses byKind =>
    simp only at h6
    rw [h6]

theorem lookupKind_insertByKind {κ : Type} [DecidableEq κ]
    (m : List (κ × List (GClause κ))) (c : GClause κ) (k : κ) :
    lookupKind (insertByKind m c) k =
      if c.kind = k then some ((lookupKind m k).getD [] ++ [c]) else lookupKind m k := by
  induction m with
  | nil =>
    by_cases hk : c.kind = k
    · simp [insertByKind, lookupKind, hk]
    · simp [insertByKind, lookupKind, hk]
  | cons e rest ih =>
    obtain ⟨k2, l⟩ := e
    simp only [insertByKind]
    by_cases h2 : k2 = c.kind
    · rw [if_pos h2]
      by_cases hk : c.kind = k
      · have hk2 : k2 = k := h2.trans hk
        simp [lookupKind, hk2, hk]
      · have hk2 : ¬ k2 = k := fun hh => hk (h2.symm.trans hh)
        simp [lookupKind, hk2, hk]
    · rw [if_neg h2]
      by_cases hk : k2 = k
      · have hck : ¬ c.kind = k := fun hh => h2 (hk.trans hh.symm)
        simp [lookupKind, hk, hck]
      · simp only [lookupKind, if_neg hk]
        exact ih

theorem lookupKind_foldl {κ : Type} [DecidableEq κ] (cs : List (GClause κ)) :
    ∀ (m : List (κ × List (GClause κ))) (k : κ),
      lookupKind (cs.foldl insertByKind m) k =
        match lookupKind m k with
        | some l => some (l ++ cs.filter (fun c => decide (c.kind = k)))
        | none =>
          if (cs.filter (fun c => decide (c.kind = k))) = [] then none
          else some (cs.filter (fun c => decide (c.kind = k))) := by
  induction cs with
  | nil =>
    intro m k
    cases hm : lookupKind m k <;> simp [hm]
  | cons c cs ih =>
    intro m k
    rw [List.foldl_cons, ih (insertByKind m c) k, lookupKind_insertByKind]
    by_cases hk : c.kind = k
    · rw [if_pos hk]
      cases hm : lookupKind m k with
      | some l => simp [List.filter_cons, hk]
      | none => simp [List.filter_cons, hk]
    · rw [if_neg hk]
      cases hm : lookupKind m k with
      | some l => simp [List.filter_cons, hk, hm]
      | none => simp [List.filter_cons, hk, hm]

/-- The indexed clause map built during parsing is the partition of the
ordered clause list under clause kind. -/
theorem lookupKind_buildMap {κ : Type} [DecidableEq κ] (cs : List (GClause κ)) (k : κ) :
    lookupKind (buildMap cs) k =
      if (cs.filter (fun c => decide (c.kind = k))) = [] then none
      else some (cs.filter (fun c => decide (c.kind = k))) := by
  rw [buildMap, lookupKind_foldl]
  rfl

theorem recogStep_fold_sound {δ : Type} (lang : Lang) (toks : List Tok) :
    ∀ (es : List (List String × δ)) (init b : Option (δ × List Tok × Nat)),
      b = es.foldl (recogStep lang toks) init → b.isSome →
      init = b ∨ ∃ e ∈ es, ∃ bv, b = some bv ∧ e.2 = bv.1 ∧
        matchKeys lang e.1 toks = some bv.2.1 ∧ e.1.length = bv.2.2 := by
  intro es
  induction es with
  | nil => intro init b hb _; exact Or.inl hb.symm
  | cons e es ih =>
    intro init b hb hsome
    rw [List.foldl_cons] at hb
    rcases ih (recogStep lang toks init e) b hb hsome with hinit | ⟨e2, he2, bv, hbv⟩
    · cases hmk : matchKeys lang e.1 toks with
      | none =>
        simp only [recogStep, hmk] at hinit
        exact Or.inl hinit
      | some r =>
        cases init with
        | none =>
          simp only [recogStep, hmk] at hinit
          right
          exact ⟨e, by simp, (e.2, r, e.1.length), hinit.symm, rfl, hmk, rfl⟩
        | some b0 =>
          simp only [recogStep, hmk] at hinit
          by_cases hlt : b0.2.2 < e.1.length
          · rw [if_pos hlt] at hinit
            right
            exact ⟨e, by simp, (e.2, r, e.1.length), hinit.symm, rfl, hmk, rfl⟩
          · rw [if_neg hlt] at hinit
            exact Or.inl hinit
    · exact Or.inr ⟨e2, by simp [he2], bv, hbv⟩

theorem recogStep_fold_ge {δ : Type} (lang : Lang) (toks : List Tok) :
    ∀ (es : List (List String × δ)) (b0 : δ × List Tok × Nat),
      ∃ b, es.foldl (recogStep lang toks) (some b0) = some b ∧ b0.2.2 ≤ b.2.2 := by
  intro es
  induction es with
  | nil => intro b0; exact ⟨b0, rfl, le_refl _⟩
  | cons e es ih =>
    intro b0
    rw [List.foldl_cons]
    cases hmk : matchKeys lang e.1 toks with
    | none =>
      simp only [recogStep, hmk]
      exact ih b0
    | some r =>
      simp only [recogStep, hmk]
      by_cases hlt : b0.2.2 < e.1.length
      · rw [if_pos hlt]
        obtain ⟨b, hb, hge⟩ := ih (e.2, r, e.1.length)
        exact ⟨b, hb, le_trans (le_of_lt hlt) hge⟩
      · rw [if_neg hlt]
        exact ih b0

theorem recogStep_fold_dominates {δ : Type} (lang : Lang) (toks : List Tok) :
    ∀ (es : List (List String × δ)) (init : Option (δ × List Tok × Nat))
      (e : List String × δ) (r2 : List Tok),
      e ∈ es → matchKeys lang e.1 toks = some r2 →
      ∃ b, es.foldl (recogStep lang toks) init = some b ∧ e.1.length ≤ b.2.2 := by
  intro es
  induction es with
  | nil => intro init e r2 hmem; cases hmem
  | cons e0 es ih =>
    intro init e r2 hmem hmk
    rw [List.foldl_cons]
    rcases List.mem_cons.mp hmem with rfl | hmem2
    · cases init with
      | none =>
        simp only [recogStep, hmk]
        exact recogStep_fold_ge lang toks es (e.2, r2, e.1.length)
      | some b0 =>
        simp only [recogStep, hmk]
        by_cases hlt : b0.2.2 < e.1.length
        · rw [if_pos hlt]
          exact recogStep_fold_ge lang toks es (e.2, r2, e.1.length)
        · rw [if_neg hlt]
          obtain ⟨b, hb, hge⟩ := recogStep_fold_ge lang toks es b0
          exact ⟨b, hb, le_trans (not_lt.mp hlt) hge⟩
    · exact ih (recogStep lang toks init e0) e r2 hmem2 hmk

/-- The recognizer is a longest-match lookup: a successful recognition names
a table entry whose keyword sequence matches the tokens, and no other table
entry matches with strictly more keywords. -/
theorem recognizeDir_longest {δ κ : Type} (T : Tables δ κ) (lang : Lang)
    (toks : List Tok) (k : δ) (rest : List Tok)
    (h : recognizeDir T lang toks = some (k, rest)) :
    ∃ ks, (ks, k) ∈ T.dirTable ∧ matchKeys lang ks toks = some rest ∧
      ∀ e ∈ T.dirTable, ∀ r2, matchKeys lang e.1 toks = some r2 →
        e.1.length ≤ ks.length := by
  rw [recognizeDir] at h
  cases hfold : T.dirTable.foldl (recogStep lang toks) none with
  | none => rw [hfold] at h; cases h
  | some b =>
    rw [hfold] at h
    simp only [Option.map, Option.some.injEq] at h
    have hk : b.1 = k := (Prod.ext_iff.mp h).1
    have hr : b.2.1 = rest := (Prod.ext_iff.mp h).2
    rcases recogStep_fold_sound lang toks T.dirTable none (some b) hfold.symm rfl with
      hinit | ⟨e, hmem, bv, hbv, hkind, hmk, hlen⟩
    · cases hinit
    · have hbeq : b = bv := Option.some.inj hbv
      obtain ⟨e1, e2⟩ := e
      simp only at hkind hmk hlen
      refine ⟨e1, ?_, ?_, ?_⟩
      · rw [show e2 = k from hkind.trans (by rw [← hbeq, hk])] at hmem
        exact hmem
      · rw [hmk, show bv.2.1 = rest from by rw [← hbeq, hr]]
      · intro e3 hmem3 r3 hmk3
        obtain ⟨b2, hb2, hge⟩ :=
          recogStep_fold_dominates lang toks T.dirTable none e3 r3 hmem3 hmk3
        rw [hfold] at hb2
        have hb2b : b = b2 := Option.some.inj hb2
        rw [hlen, ← hbeq, hb2b]
        exact hge

theorem alook_not_mem (objs : List (Nat × Obj)) (h2 : Nat)
    (h : h2 ∉ objs.map Prod.fst) : alook objs h2 = none := by
  induction objs with
  | nil => rfl
  | cons e rest ih =>
    obtain ⟨k, v⟩ := e
    simp only [List.map_cons, List.mem_cons] at h
    push_neg at h
    rw [alook, if_neg (fun hh => h.1 hh.symm)]
    exact ih h.2

theorem alook_filter_key (objs : List (Nat × Obj)) (h : Nat) :
    alook (objs.filter fun e => !(e.1 = h || objParent e.2 = some h)) h = none := by
  induction objs with
  | nil => rfl
  | cons e rest ih =>
    obtain ⟨k, v⟩ := e
    rw [List.filter_cons]
    by_cases hp : (!(k = h || objParent v = some h)) = true
    · rw [if_pos hp]
      simp only [Bool.not_eq_true', Bool.or_eq_false_iff, decide_eq_false_iff_not] at hp
      rw [alook, if_neg hp.1]
      exact ih
    · rw [if_neg hp]
      exact ih

theorem alook_filter_parent (objs : List (Nat × Obj))
    (hnd : (objs.map Prod.fst).Nodup) (ch hpar : Nat) (o : Obj)
    (hlk : alook objs ch = some o) (hp : objParent o = some hpar) :
    alook (objs.filter fun e => !(e.1 = hpar || objParent e.2 = some hpar)) ch = none := by
  induction objs with
  | nil => cases hlk
  | cons e rest ih =>
    obtain ⟨k, v⟩ := e
    simp only [List.map_cons, List.nodup_cons] at hnd
    by_cases hkch : k = ch
    · subst hkch
      rw [alook, if_pos rfl] at hlk
      have hv : v = o := Option.some.inj hlk
      subst hv
      rw [List.filter_cons, if_neg (by simp [hp])]
      refine alook_not_mem _ _ ?_
      intro hmem
      exact hnd.1 (List.map_subset Prod.fst (List.filter_sublist _).subset hmem)
    · rw [alook, if_neg hkch] at hlk
      rw [List.filter_cons]
      by_cases hpred : (!(k = hpar || objParent v = some hpar)) = true
      · rw [if_pos hpred, alook, if_neg hkch]
        exact ih hnd.2 hlk
      · rw [if_neg hpred]
        exact ih hnd.2 hlk

theorem alook_map_replace_self (objs : List (Nat × Obj)) (h : Nat) (o : Obj) :
    alook (objs.map fun e => if e.1 = h then (e.1, o) else e) h =
      (alook objs h).map fun _ => o := by
  induction objs with
  | nil => rfl
  | cons e rest ih =>
    obtain ⟨k, v⟩ := e
    by_cases hk : k = h
    · simp only [List.map_cons, if_pos hk]
      rw [alook, if_pos hk, alook, if_pos hk]
      rfl
    · simp only [List.map_cons, if_neg hk]
      rw [alook, if_neg hk, alook, if_neg hk]
      exact ih

theorem alook_map_replace_other (objs : List (Nat × Obj)) (h h2 : Nat) (o : Obj)
    (hne : h2 ≠ h) :
    alook (objs.map fun e => if e.1 = h then (e.1, o) else e) h2 = alook objs h2 := by
  induction objs with
  | nil => rfl
  | cons e rest ih =>
    obtain ⟨k, v⟩ := e
    by_cases hk : k = h
    · simp only [List.map_cons, if_pos hk]
      have hkh2 : ¬ k = h2 := fun hh => hne (hh.symm.trans hk)
      rw [alook, if_neg hkh2, alook, if_neg hkh2]
      exact ih
    · simp only [List.map_cons, if_neg hk]
      by_cases hk2 : k = h2
      · rw [alook, if_pos hk2, alook, if_pos hk2]
      · rw [alook, if_neg hk2, alook, if_neg hk2]
        exact ih

/-- Claim C1: Parse–render idempotence.  For every canonical rendered directive
string `s` (the rendering of a well-formed directive value), parsing `s` and
rendering the resulting directive yields exactly `s` again:
`render(parse(s)) == s`. -/
theorem c1_parse_render_idempotent {δ κ : Type} [DecidableEq δ] [DecidableEq κ]
    (T : Tables δ κ) (lang : Lang) (s : String)
    (h : ∃ d, wfDirective T lang d = true ∧ renderD T lang d = s) :
    (parseD T lang s).map (renderD T lang) = some s := by
  obtain ⟨d, hwf, hrend⟩ := h
  subst hrend
  rw [parseD_renderD T lang d hwf]
  rfl

/-- Witness for claim C1 at the specification's concrete scenario string. -/
theorem c1_witness :
    (parseD ompTables Lang.c
        "#pragma omp parallel num_threads(4) private(x, y) shared(z)").map
      (renderD ompTables Lang.c) =
    some "#pragma omp parallel num_threads(4) private(x, y) shared(z)" :=
  c1_parse_render_idempotent ompTables Lang.c
    "#pragma omp parallel num_threads(4) private(x, y) shared(z)"
    ⟨exParallelDir, by decide, by decide⟩

/-- Claim C2: Clause-order preservation.  For every successfully parsed
directive, the sequence of clause kinds in `clauses_in_original_order`
equals the sequence in which the clauses appeared in the input text (the
rendering of the clause list in its stored order). -/
theorem c2_clause_order_preserved {δ κ : Type} [DecidableEq δ] [DecidableEq κ]
    (T : Tables δ κ) (lang : Lang) (d : GDirective δ κ)
    (h : wfDirective T lang d = true) :
    (parseD T lang (renderD T lang d)).map
        (fun d2 => (clauses_in_original_order d2).map (·.kind)) =
      some ((clauses_in_original_order d).map (·.kind)) := by
  rw [parseD_renderD T lang d h]
  rfl

/-- Witness for claim C2: parsing
`#pragma omp parallel num_threads(4) private(x, y) shared(z)` yields the
ordered clause kinds `[num_threads, private, shared]`. -/
theorem c2_witness :
    (parseD ompTables Lang.c (renderD ompTables Lang.c exParallelDir)).map
        (fun d2 => (clauses_in_original_order d2).map (·.kind)) =
      some [OmpC.numThreads, OmpC.privateC, OmpC.shared] :=
  (c2_clause_order_preserved ompTables Lang.c exParallelDir (by decide)).trans (by decide)

theorem parseD_byKind {δ κ : Type} [DecidableEq δ] [DecidableEq κ]
    (T : Tables δ κ) (lang : Lang) (s : String) (d : GDirective δ κ)
    (h : parseD T lang s = some d) : d.byKind = buildMap d.clauses := by
  rw [parseD] at h
  split at h
  · exact Option.noConfusion h
  · split at h
    · exact Option.noConfusion h
    · split at h
      · exact Option.noConfusion h
      · split at h
        · exact Option.noConfusion h
        · have := Option.some.inj h
          rw [← this]

/-- Claim C3: Map/list consistency.  For every successfully parsed
directive and every clause kind `k`, the indexed clause map entry for `k`
is exactly the sub-sequence of `clauses_in_original_order` whose kind is
`k`: present (and non-empty) exactly when some clause has kind `k`. -/
theorem c3_map_list_consistency {δ κ : Type} [DecidableEq δ] [DecidableEq κ]
    (T : Tables δ κ) (lang : Lang) (s : String) (d : GDirective δ κ)
    (h : parseD T lang s = some d) (k : κ) :
    lookupKind (clauses_by_kind d) k =
      if ((clauses_in_original_order d).filter fun c => decide (c.kind = k)) = [] then none
      else some ((clauses_in_original_order d).filter fun c => decide (c.kind = k)) := by
  rw [clauses_by_kind, parseD_byKind T lang s d h, clauses_in_original_order]
  exact lookupKind_buildMap d.clauses k

/-- Witness for claim C3: in
`#pragma omp parallel private(x) num_threads(4) private(y)` the map entry
for `private` is the two `private` clauses in their original order. -/
theorem c3_witness :
    lookupKind (clauses_by_kind exTwoPrivateDir) OmpC.privateC =
      some [⟨OmpC.privateC, .listArg none ["x"]⟩, ⟨OmpC.privateC, .listArg none ["y"]⟩] :=
  (c3_map_list_consistency ompTables Lang.c
      "#pragma omp parallel private(x) num_threads(4) private(y)"
      exTwoPrivateDir (by decide) OmpC.privateC).trans (by decide)

/-- Claim C4: Alias normalization.  Parsing
`acc data pcopy(a) present_or_copy(b)` produces two clauses of the
canonical `copy` kind (the map entry for `copy` has length 2), the alias
spelling is not retained (the directive re-renders with `copy`), and the
remaining alias pairs normalize to `copyin`, `copyout` and `create`. -/
theorem c4_alias_normalization :
    parseOpenACC Lang.c (some "acc data pcopy(a) present_or_copy(b)") =
      some ⟨AccD.data,
        [⟨AccC.copy, .listArg none ["a"]⟩, ⟨AccC.copy, .listArg none ["b"]⟩],
        buildMap [⟨AccC.copy, .listArg none ["a"]⟩, ⟨AccC.copy, .listArg none ["b"]⟩]⟩ ∧
    ((parseOpenACC Lang.c (some "acc data pcopy(a) present_or_copy(b)")).bind
        fun d => lookupKind (clauses_by_kind d) AccC.copy).map List.length = some 2 ∧
    (parseOpenACC Lang.c (some "acc data pcopy(a) present_or_copy(b)")).map
        (renderD accTables Lang.c) = some "#pragma acc data copy(a) copy(b)" ∧
    (parseOpenACC Lang.c (some
        "acc data pcopyin(c) present_or_copyin(d) pcopyout(e) present_or_copyout(f) pcreate(g) present_or_create(h)")).map
        (fun d => (clauses_in_original_order d).map (·.kind)) =
      some [AccC.copyinA, AccC.copyinA, AccC.copyoutA, AccC.copyoutA,
        AccC.create, AccC.create] :=
  ⟨by decide, by decide, by decide, by decide⟩

/-- Claim C5: Longest-match directive recognition.  The recognizer returns
a table entry matching the token stream such that no table entry matches
with strictly more keywords; in particular `omp parallel for` parses to
the combined `parallel_for` kind (not plain `parallel`),
`target teams distribute parallel for` parses to its combined kind, and
the continuation-folded `parallel for` directive of the test suite parses
to `parallel_for` with its 2 clauses. -/
theorem c5_longest_match :
    (∀ (toks : List Tok) (k : OmpD) (rest : List Tok),
        recognizeDir ompTables Lang.c toks = some (k, rest) →
        ∃ ks, (ks, k) ∈ ompTables.dirTable ∧ matchKeys Lang.c ks toks = some rest ∧
          ∀ e ∈ ompTables.dirTable, ∀ r2, matchKeys Lang.c e.1 toks = some r2 →
            e.1.length ≤ ks.length) ∧
    (parseOpenMP Lang.c (some "omp parallel for")).map (·.kind) =
      some OmpD.parallelFor ∧
    (parseOpenMP Lang.c (some "#pragma omp target teams distribute parallel for")).map
        (·.kind) = some OmpD.targetTeamsDistributeParallelFor ∧
    (parseOpenMP Lang.c (some
        "#pragma omp parallel for \\\n    schedule(dynamic, 4) \\\n    private(i, \\\n            j)")).map
        (fun d => (d.kind, (clauses_in_original_order d).length)) =
      some (OmpD.parallelFor, 2) :=
  ⟨fun toks k rest h => recognizeDir_longest ompTables Lang.c toks k rest h,
   by decide, by decide, by decide⟩

/-- Witness for claim C5 at the token stream of `parallel for`. -/
theorem c5_witness :
    ∃ ks, (ks, OmpD.parallelFor) ∈ ompTables.dirTable ∧
      matchKeys Lang.c ks [Tok.word "parallel".data, Tok.word "for".data] = some [] ∧
      ∀ e ∈ ompTables.dirTable, ∀ r2,
        matchKeys Lang.c e.1 [Tok.word "parallel".data, Tok.word "for".data] = some r2 →
        e.1.length ≤ ks.length :=
  c5_longest_match.1 [Tok.word "parallel".data, Tok.word "for".data]
    OmpD.parallelFor [] (by decide)

/-- Counterexample for claim C6: converting `!$OMP DO SCHEDULE(DYNAMIC)`
from Fortran free form to C yields `#pragma omp for schedule(DYNAMIC)` —
the schedule argument's original spelling is preserved (as the repository's
own `convert_fortran_to_c` test asserts), not lowercased to
`schedule(dynamic)` as the claim states. -/
theorem c6_counterexample :
    roup_convert_language (some "!$OMP DO SCHEDULE(DYNAMIC)") Lang.fortran Lang.c =
      some "#pragma omp for schedule(DYNAMIC)" ∧
    ¬ roup_convert_language (some "!$OMP DO SCHEDULE(DYNAMIC)") Lang.fortran Lang.c =
      some "#pragma omp for schedule(dynamic)" :=
  ⟨by decide, by decide⟩

/-- Claim C6 (amended): converting `!$OMP DO SCHEDULE(DYNAMIC)` from
Fortran free form to C yields `#pragma omp for schedule(DYNAMIC)`: the
directive keyword `do` maps to `for` and the canonical keywords (`for`,
`schedule`) are lowercase, while the schedule argument body's original
spelling case is preserved (argument-body case normalization is
implementation-defined). -/
theorem c6_convert_fortran_to_c :
    roup_convert_language (some "!$OMP DO SCHEDULE(DYNAMIC)") Lang.fortran Lang.c =
      some "#pragma omp for schedule(DYNAMIC)" := by decide

/-- Claim C7: converting `#pragma omp parallel for private(i, j)` from C
to Fortran free form yields exactly `!$omp parallel do private(i, j)`:
`for` is emitted as `do`, and (second conjunct, the test suite's combined
directive) the mapping alters no other keyword —
`target`, `teams`, `distribute`, `simd` and `schedule(static, 4)` pass
through unchanged. -/
theorem c7_convert_c_to_fortran :
    roup_convert_language (some "#pragma omp parallel for private(i, j)")
        Lang.c Lang.fortran = some "!$omp parallel do private(i, j)" ∧
    roup_convert_language
        (some "#pragma omp target teams distribute parallel for simd schedule(static, 4)")
        Lang.c Lang.fortran =
      some "!$omp target teams distribute parallel do simd schedule(static, 4)" :=
  ⟨by decide, by decide⟩

/-- Claim C8: Rejection of unparsable inputs.  Null input yields status
*NullPointer* and each of the unparsable strings `""`, `"not a pragma"` and
`"#pragma omp unknown_directive_xyz"` yields status *ParseError* from
`omp_parse` in either host language; in every case the registry is returned
unchanged (nothing is allocated) and the out-parameter handle stays `none`
(unwritten); the `parseOpenMP` facade returns a null directive pointer for
the same inputs. -/
theorem c8_reject_unparsable :
    (∀ (lang : Lang) (st : Registry),
        omp_parse none lang st = (OmpStatus.nullPointer, st, none) ∧
        parseOpenMP lang none = none) ∧
    (∀ (lang : Lang) (st : Registry),
        omp_parse (some "") lang st = (OmpStatus.parseError, st, none) ∧
        omp_parse (some "not a pragma") lang st = (OmpStatus.parseError, st, none) ∧
        omp_parse (some "#pragma omp unknown_directive_xyz") lang st =
          (OmpStatus.parseError, st, none) ∧
        parseOpenMP lang (some "") = none ∧
        parseOpenMP lang (some "not a pragma") = none ∧
        parseOpenMP lang (some "#pragma omp unknown_directive_xyz") = none) := by
  refine ⟨fun lang st => ⟨rfl, rfl⟩, fun lang st => ?_⟩
  cases lang <;> exact ⟨rfl, rfl, rfl, rfl, rfl, rfl⟩

/-- Claim C9: Handle lifetime.  If the registry's handles are distinct and
`omp_directive_free` succeeds on a directive handle `h`, then every
subsequent query on `h` returns *InvalidHandle* (kind, clause count), a
second free on `h` returns *InvalidHandle* and leaves the registry as it
was, every clause or cursor handle that was derived from `h` also answers
*InvalidHandle* afterwards, and handle `0` is invalid in every registry. -/
theorem c9_handle_lifetime (st : Registry) (h : Nat)
    (hnd : (st.objs.map Prod.fst).Nodup) (st2 : Registry)
    (hfree : omp_directive_free st h = (OmpStatus.success, st2)) :
    omp_directive_kind st2 h = (OmpStatus.invalidHandle, none) ∧
    omp_directive_clause_count st2 h = (OmpStatus.invalidHandle, none) ∧
    omp_directive_free st2 h = (OmpStatus.invalidHandle, st2) ∧
    (∀ ch o, regGet st ch = some o → objParent o = some h →
      omp_clause_type st2 ch = (OmpStatus.invalidHandle, none) ∧
      omp_cursor_is_done st2 ch = (OmpStatus.invalidHandle, none)) ∧
    (∀ st3 : Registry, regGet st3 0 = none) := by
  rw [omp_directive_free] at hfree
  split at hfree
  case h_2 => exact absurd (congrArg Prod.fst hfree) (by simp)
  case h_1 d hg =>
    have hst2 : regRemoveOwned st h = st2 := congrArg Prod.snd hfree
    subst hst2
    have hne0 : h ≠ 0 := by
      intro h0
      rw [regGet, if_pos h0] at hg
      cases hg
    have hgone : regGet (regRemoveOwned st h) h = none := by
      rw [regGet, if_neg hne0]
      exact alook_filter_key st.objs h
    refine ⟨by simp [omp_directive_kind, hgone], by simp [omp_directive_clause_count, hgone],
      by simp [omp_directive_free, hgone], ?_, fun st3 => rfl⟩
    intro ch o hch hpar
    have hchne0 : ch ≠ 0 := by
      intro h0
      rw [regGet, if_pos h0] at hch
      cases hch
    have halk : alook st.objs ch = some o := by
      rw [regGet, if_neg hchne0] at hch
      exact hch
    have hgone2 : regGet (regRemoveOwned st h) ch = none := by
      rw [regGet, if_neg hchne0]
      exact alook_filter_parent st.objs hnd ch h o halk hpar
    exact ⟨by simp [omp_clause_type, hgone2], by simp [omp_cursor_is_done, hgone2]⟩

/-- Witness for claim C9: freeing the directive at handle 1 of a registry
that also holds a clause handle 2 and a cursor handle 3 derived from it
makes every later query on handles 1, 2 and 3 answer *InvalidHandle*, and a
double free fails. -/
theorem c9_witness :
    ((exRegC9.objs.map Prod.fst).Nodup ∧
      omp_directive_free exRegC9 1 = (OmpStatus.success, regRemoveOwned exRegC9 1)) ∧
    omp_directive_kind (regRemoveOwned exRegC9 1) 1 = (OmpStatus.invalidHandle, none) ∧
    omp_directive_free (regRemoveOwned exRegC9 1) 1 =
      (OmpStatus.invalidHandle, regRemoveOwned exRegC9 1) ∧
    omp_clause_type (regRemoveOwned exRegC9 1) 2 = (OmpStatus.invalidHandle, none) ∧
    omp_cursor_is_done (regRemoveOwned exRegC9 1) 3 = (OmpStatus.invalidHandle, none) ∧
    regGet Registry.empty 0 = none := by
  have H := c9_handle_lifetime exRegC9 1 (by decide) (regRemoveOwned exRegC9 1) (by decide)
  exact ⟨⟨by decide, by decide⟩, H.1, H.2.2.1,
    (H.2.2.2.1 2 (Obj.clause 1 ⟨OmpC.numThreads, Arg.expr "4"⟩) (by decide) (by decide)).1,
    (H.2.2.2.1 3 (Obj.cursor 1 0) (by decide) (by decide)).2,
    H.2.2.2.2 Registry.empty⟩

/-- Claim C10: `omp_str_clear` frame property.  On a live string-builder
handle it returns *Success*; afterwards the builder's length is 0 (so
`omp_str_is_empty` reports true) while its capacity is unchanged, the
registry's allocation counter is untouched, and every other handle maps to
exactly the object it mapped to before. -/
theorem c10_str_clear_frame (st : Registry) (h : Nat) (content : String) (cap : Nat)
    (hg : regGet st h = some (Obj.str content cap)) :
    ∃ st2, omp_str_clear st h = (OmpStatus.success, st2) ∧
      regGet st2 h = some (Obj.str "" cap) ∧
      omp_str_is_empty st2 h = (OmpStatus.success, some true) ∧
      omp_str_len st2 h = (OmpStatus.success, some 0) ∧
      omp_str_capacity st2 h = (OmpStatus.success, some cap) ∧
      st2.next = st.next ∧
      ∀ h2, h2 ≠ h → regGet st2 h2 = regGet st h2 := by
  have hne0 : h ≠ 0 := by
    intro h0
    rw [regGet, if_pos h0] at hg
    cases hg
  have halk : alook st.objs h = some (Obj.str content cap) := by
    rw [regGet, if_neg hne0] at hg
    exact hg
  refine ⟨regReplace st h (Obj.str "" cap), by simp [omp_str_clear, hg], ?_, ?_, ?_, ?_, rfl, ?_⟩
  case refine_1 =>
    rw [regGet, if_neg hne0]
    show alook (st.objs.map fun e => if e.1 = h then (e.1, Obj.str "" cap) else e) h = _
    rw [alook_map_replace_self st.objs h (Obj.str "" cap), halk]
    rfl
  case refine_2 =>
    have hget2 : regGet (regReplace st h (Obj.str "" cap)) h = some (Obj.str "" cap) := by
      rw [regGet, if_neg hne0]
      show alook (st.objs.map fun e => if e.1 = h then (e.1, Obj.str "" cap) else e) h = _
      rw [alook_map_replace_self st.objs h (Obj.str "" cap), halk]
      rfl
    simp [omp_str_is_empty, hget2]
  case refine_3 =>
    have hget2 : regGet (regReplace st h (Obj.str "" cap)) h = some (Obj.str "" cap) := by
      rw [regGet, if_neg hne0]
      show alook (st.objs.map fun e => if e.1 = h then (e.1, Obj.str "" cap) else e) h = _
      rw [alook_map_replace_self st.objs h (Obj.str "" cap), halk]
      rfl
    simp [omp_str_len, hget2]
  case refine_4 =>
    have hget2 : regGet (regReplace st h (Obj.str "" cap)) h = some (Obj.str "" cap) := by
      rw [regGet, if_neg hne0]
      show alook (st.objs.map fun e => if e.1 = h then (e.1, Obj.str "" cap) else e) h = _
      rw [alook_map_replace_self st.objs h (Obj.str "" cap), halk]
      rfl
    simp [omp_str_capacity, hget2]
  case refine_5 =>
    intro h2 hne
    by_cases h20 : h2 = 0
    · rw [regGet, if_pos h20, regGet, if_pos h20]
    · rw [regGet, if_neg h20, regGet, if_neg h20]
      exact alook_map_replace_other st.objs h h2 (Obj.str "" cap) hne

/-- Witness for claim C10: clearing the string builder `Hello` (capacity 5)
at handle 1 succeeds, empties it, keeps capacity 5 and changes nothing
else. -/
theorem c10_witness :
    regGet exRegC10 1 = some (Obj.str "Hello" 5) ∧
    ∃ st2, omp_str_clear exRegC10 1 = (OmpStatus.success, st2) ∧
      regGet st2 1 = some (Obj.str "" 5) ∧
      omp_str_is_empty st2 1 = (OmpStatus.success, some true) ∧
      omp_str_len st2 1 = (OmpStatus.success, some 0) ∧
      omp_str_capacity st2 1 = (OmpStatus.success, some 5) ∧
      st2.next = exRegC10.next ∧
      ∀ h2, h2 ≠ 1 → regGet st2 h2 = regGet exRegC10 h2 :=
  ⟨by decide, c10_str_clear_frame exRegC10 1 "Hello" 5 (by decide)⟩

end Roup
